import Mathlib

/-!
Verification of the bf-rust core: instruction IR, lowering, linker,
optimisation passes, bytecode codec and interpreter, shallowly embedded
from the Rust sources.  Machine integers are modelled as `Nat`/`Int` with
explicit reductions where the Rust semantics wraps; fallible paths
(`unwrap`, `unreachable!`, arithmetic that panics under overflow checks)
are modelled with `Option`.
-/

set_option maxRecDepth 4000

namespace BfRust

/-- The instruction enum of `src/instruction/mod.rs`.  `amount : Cell = i8`
and `offset : i64` are modelled as `Int`; `destination : u64` holds an
instruction index and is modelled as `Nat`. -/
inductive Instruction where
  | IncrDp (amount : Int)
  | Incr (amount : Int) (offset : Int)
  | BranchIfZero (destination : Nat)
  | BranchIfNotZero (destination : Nat)
  | Read
  | Write
  | Set (amount : Int) (offset : Int)
  | Mul (amount : Int) (offset : Int)
deriving DecidableEq, Repr

/-- Two's-complement wrap of an `Int` into the `i8` range `[-128, 127]`:
the value computed by Rust's `i8` addition in a build without overflow
checks (the default release profile). -/
def i8wrap (x : Int) : Int := (x + 128) % 256 - 128

/-- Checked `i8` addition: `a + b` as compiled with overflow checks
(the default debug profile), where an out-of-range sum panics. -/
def i8addChecked (a b : Int) : Option Int :=
  if -128 ≤ a + b ∧ a + b ≤ 127 then some (a + b) else none

/-- `UnlinkedInstructions::from_text` of `src/instruction/unlinked.rs`:
lower a byte stream to unlinked IR, discarding unrecognised bytes.
Byte values: `>` 62, `<` 60, `+` 43, `-` 45, `[` 91, `]` 93, `,` 44, `.` 46. -/
def from_text : List Nat → List Instruction
  | [] => []
  | b :: rest =>
    let r := from_text rest
    if b = 62 then .IncrDp 1 :: r
    else if b = 60 then .IncrDp (-1) :: r
    else if b = 43 then .Incr 1 0 :: r
    else if b = 45 then .Incr (-1) 0 :: r
    else if b = 91 then .BranchIfZero 0 :: r
    else if b = 93 then .BranchIfNotZero 0 :: r
    else if b = 44 then .Read :: r
    else if b = 46 then .Write :: r
    else r

/-- The error enum of `src/error.rs` (the `String` payload of
`UnknownFileExtension` and the wrapped cause of `Io` are irrelevant to the
claims and omitted). -/
inductive Error where
  | UnknownFileExtension
  | Io
  | CouldNotReadInput
  | MissingOpeningBracket (pos : Nat)
  | MissingClosingBracket (pos : Nat)
deriving DecidableEq, Repr

/-- The loop body of `UnlinkedInstructions::link`
(`src/instruction/unlinked.rs`): `k` is the index of the head of the
remaining list, `cur` the full working vector (the Rust code mutates
`self.0` in place; positions `≥ k` are never written before being read,
so reading instructions from the original suffix is equivalent), `st` the
stack of open-`[` indices with its head the most recently pushed index. -/
def linkGo : Nat → List Instruction → List Instruction → List Nat →
    Except Error (List Instruction)
  | _, [], cur, st =>
    match st with
    | [] => .ok cur
    | p :: _ => .error (.MissingClosingBracket p)
  | k, .BranchIfZero _ :: rest, cur, st => linkGo (k + 1) rest cur (k :: st)
  | k, .BranchIfNotZero _ :: rest, cur, st =>
    match st with
    | [] => .error (.MissingOpeningBracket k)
    | op :: st' =>
      linkGo (k + 1) rest ((cur.set k (.BranchIfNotZero op)).set op (.BranchIfZero k)) st'
  | k, _ :: rest, cur, st => linkGo (k + 1) rest cur st

/-- `UnlinkedInstructions::link` of `src/instruction/unlinked.rs`
(the standalone `link` of `src/link.rs` is the same stack walk). -/
def link (l : List Instruction) : Except Error (List Instruction) :=
  linkGo 0 l l []

/-- The pure bracket-matching walk underlying `link`: collects the matched
pairs `(open, close)` and returns the final stack, or `none` when a `]`
pops an empty stack. -/
def pairsGo : Nat → List Instruction → List Nat →
    Option (List (Nat × Nat) × List Nat)
  | _, [], st => some ([], st)
  | k, .BranchIfZero _ :: rest, st => pairsGo (k + 1) rest (k :: st)
  | k, .BranchIfNotZero _ :: rest, st =>
    match st with
    | [] => none
    | op :: st' => (pairsGo (k + 1) rest st').map (fun r => ((op, k) :: r.1, r.2))
  | k, _ :: rest, st => pairsGo (k + 1) rest st

/-- The same walk keeping only failure position (`Except.error j` for the
first `]` finding an empty stack) or the final stack. -/
def walk : Nat → List Instruction → List Nat → Except Nat (List Nat)
  | _, [], st => .ok st
  | k, .BranchIfZero _ :: rest, st => walk (k + 1) rest (k :: st)
  | k, .BranchIfNotZero _ :: rest, st =>
    match st with
    | [] => .error k
    | _ :: st' => walk (k + 1) rest st'
  | k, _ :: rest, st => walk (k + 1) rest st

/-- `LinkedInstructions::combine_clears` of `src/optimise.rs`: fold
`[` `Incr{±1,0}` `]` into `Set{0,0}`.  The Rust code calls
`inst_iter.peek().unwrap()` twice after seeing a `BranchIfZero`; an
`unwrap` of `None` (a panic) is modelled as `none`. -/
def combine_clears : List Instruction → Option (List Instruction)
  | [] => some []
  | .BranchIfZero _ :: rest =>
    match rest with
    | [] => none
    | .Incr a o :: rest2 =>
      if (a = 1 ∨ a = -1) ∧ o = 0 then
        match rest2 with
        | [] => none
        | .BranchIfNotZero _ :: rest3 =>
          (combine_clears rest3).map (fun t => .Set 0 0 :: t)
        | z :: rest3 =>
          (combine_clears (z :: rest3)).map (fun t => .BranchIfZero 0 :: .Incr a 0 :: t)
      else (combine_clears (.Incr a o :: rest2)).map (fun t => .BranchIfZero 0 :: t)
    | y :: rest2 => (combine_clears (y :: rest2)).map (fun t => .BranchIfZero 0 :: t)
  | x :: rest => (combine_clears rest).map (fun t => x :: t)
termination_by l => l.length
decreasing_by all_goals simp +arith

/-- The adjacent-pair rule set of `group_instructions` (`src/optimise.rs`,
the closure passed to `coalesce`): `some` is itertools' `Ok(merged)`,
`none` is `Err((prev, curr))`.  Rust computes `prev_amt + amount` with
plain `+`; on `i8` that wraps in a build without overflow checks, which
`i8wrap` models (see `fuseChecked` for the checked build). -/
def fuse : Instruction → Instruction → Option Instruction
  | .Incr a o, .Incr b o' => if o = o' then some (.Incr (i8wrap (a + b)) o') else none
  | .IncrDp a, .IncrDp b => some (.IncrDp (a + b))
  | .Incr _ o, .Set b o' => if o = o' then some (.Set b o') else none
  | .Set a o, .Incr b o' => if o = o' then some (.Set (i8wrap (a + b)) o') else none
  | .Set _ o, .Set b o' => if o = o' then some (.Set b o') else none
  | _, _ => none

/-- itertools' `coalesce` loop: `prev` is the pending element. -/
def coalesceGo (prev : Instruction) : List Instruction → List Instruction
  | [] => [prev]
  | x :: rest =>
    match fuse prev x with
    | some m => coalesceGo m rest
    | none => prev :: coalesceGo x rest

/-- `self.0.into_iter().coalesce(...)` of `group_instructions`. -/
def coalesceInsts : List Instruction → List Instruction
  | [] => []
  | x :: rest => coalesceGo x rest

/-- The predicate of the `filter` in `group_instructions`:
`Incr{amount: 0, ..}` and `IncrDp{amount: 0}` are dropped. -/
def isNeutralB : Instruction → Bool
  | .Incr a _ => a = 0
  | .IncrDp a => a = 0
  | _ => false

/-- `LinkedInstructions::group_instructions` of `src/optimise.rs`
(release-profile arithmetic: `i8` sums wrap). -/
def group_instructions (l : List Instruction) : List Instruction :=
  (coalesceInsts l).filter (fun i => !(isNeutralB i))

/-- `fuse` as compiled with overflow checks: the `i8` additions
`prev_amt + amount` panic when the sum leaves `[-128, 127]`; the panic is
the outer `none`.  (`i64` sums for `IncrDp` are kept exact: the spec
assumes they never overflow for accepted programs.) -/
def fuseChecked : Instruction → Instruction → Option (Option Instruction)
  | .Incr a o, .Incr b o' =>
    if o = o' then
      match i8addChecked a b with
      | some c => some (some (.Incr c o'))
      | none => none
    else some none
  | .IncrDp a, .IncrDp b => some (some (.IncrDp (a + b)))
  | .Incr _ o, .Set b o' => if o = o' then some (some (.Set b o')) else some none
  | .Set a o, .Incr b o' =>
    if o = o' then
      match i8addChecked a b with
      | some c => some (some (.Set c o'))
      | none => none
    else some none
  | .Set _ o, .Set b o' => if o = o' then some (some (.Set b o')) else some none
  | _, _ => some none

/-- `coalesceGo` under overflow checks. -/
def coalesceGoChecked (prev : Instruction) : List Instruction → Option (List Instruction)
  | [] => some [prev]
  | x :: rest =>
    match fuseChecked prev x with
    | none => none
    | some (some m) => coalesceGoChecked m rest
    | some none => (coalesceGoChecked x rest).map (fun t => prev :: t)

/-- `group_instructions` as compiled with overflow checks (debug profile):
`none` when an `i8` fusion sum overflows and the program panics. -/
def group_instructions_checked (l : List Instruction) : Option (List Instruction) :=
  match l with
  | [] => some []
  | x :: rest =>
    (coalesceGoChecked x rest).map (List.filter (fun i => !(isNeutralB i)))

/-- Association-list model of `HashMap<i64, Cell>`: lookup. -/
def lookupKV : List (Int × Int) → Int → Option Int
  | [], _ => none
  | (k', v) :: t, k => if k' = k then some v else lookupKV t k

/-- Association-list model of `HashMap::insert` (replace or append). -/
def insertKV : List (Int × Int) → Int → Int → List (Int × Int)
  | [], k, v => [(k, v)]
  | (k', v') :: t, k, v =>
    if k' = k then (k, v) :: t else (k', v') :: insertKV t k v

/-- Association-list model of `HashMap::remove`. -/
def eraseKey (k : Int) : List (Int × Int) → List (Int × Int)
  | [] => []
  | (k', v') :: t => if k' = k then t else (k', v') :: eraseKey k t

/-- The loop of `cell_changes` (`src/optimise.rs`): accumulate per-offset
deltas while tracking the pointer.  The `unreachable!()` arm for other
instructions (a panic) is `none`; the `i8` sum `current_amount + amount`
wraps as in the release profile. -/
def cellChangesGo : List (Int × Int) → Int → List Instruction → Option (List (Int × Int))
  | changes, _, [] => some changes
  | changes, idx, .Incr a o :: rest =>
    cellChangesGo (insertKV changes (idx + o) (i8wrap ((lookupKV changes (idx + o)).getD 0 + a))) idx rest
  | changes, idx, .IncrDp a :: rest => cellChangesGo changes (idx + a) rest
  | _, _, _ :: _ => none

/-- `cell_changes` of `src/optimise.rs`. -/
def cell_changes (insts : List Instruction) : Option (List (Int × Int)) :=
  cellChangesGo [] 0 insts

/-- The first loop of `is_multiply_loop`: reject anything but
`Incr`/`IncrDp` and accumulate the net pointer movement. -/
def netMoveGo : Int → List Instruction → Option Int
  | acc, [] => some acc
  | acc, .Incr _ _ :: rest => netMoveGo acc rest
  | acc, .IncrDp a :: rest => netMoveGo (acc + a) rest
  | _, _ :: _ => none

/-- `is_multiply_loop` of `src/optimise.rs`. -/
def is_multiply_loop (insts : List Instruction) : Option (List (Int × Int)) :=
  match netMoveGo 0 insts with
  | none => none
  | some net =>
    if net ≠ 0 then none
    else
      match cell_changes insts with
      | none => none
      | some changes =>
        match lookupKV changes 0 with
        | some a =>
          if a = -1 then (if changes.length = 1 then none else some changes)
          else none
        | none => none

/-- The loop of `combine_multiply_loops` (`src/optimise.rs`): `p` is the
index of the head of `cur` in `orig` (`cur = orig.drop p`).  `enum` models
the arbitrary iteration order of `changes.iter()` over the Rust
`HashMap` — a valid order is any permutation of the entries.  The
`iter.advance_by(..)` skip is `List.drop`. -/
def cmlGo (orig : List Instruction) (enum : List (Int × Int) → List (Int × Int)) :
    Nat → List Instruction → List Instruction
  | _, [] => []
  | p, inst :: rest =>
    match inst with
    | .BranchIfZero dest =>
      match is_multiply_loop ((orig.drop (p + 1)).take (dest - (p + 1))) with
      | some changes =>
        ((enum (eraseKey 0 changes)).map (fun e => Instruction.Mul e.2 e.1)) ++
          Instruction.Set 0 0 ::
            cmlGo orig enum (p + 1 + (dest - p)) (rest.drop (dest - p))
      | none => .BranchIfZero dest :: cmlGo orig enum (p + 1) rest
    | i => i :: cmlGo orig enum (p + 1) rest
termination_by _ l => l.length
decreasing_by all_goals simp +arith [List.length_drop]

/-- `LinkedInstructions::combine_multiply_loops` of `src/optimise.rs`,
parameterised by the hash-map iteration order `enum`. -/
def combine_multiply_loops (enum : List (Int × Int) → List (Int × Int))
    (l : List Instruction) : List Instruction :=
  cmlGo l enum 0 l

/-- A valid iteration order of the hash-map model: any function returning
the entries in some permuted order. -/
def IterOrd (enum : List (Int × Int) → List (Int × Int)) : Prop :=
  ∀ m, List.Perm (enum m) m

/-- `HashMap<i64, Vec<Instruction>>` push used in `reorder_sequence`:
`entry(k).or_insert_with(Vec::new)` then `push`. -/
def pushKV : List (Int × List Instruction) → Int → Instruction → List (Int × List Instruction)
  | [], k, v => [(k, [v])]
  | (k', vs) :: t, k, v =>
    if k' = k then (k', vs ++ [v]) :: t else (k', vs) :: pushKV t k v

/-- The loop of `reorder_sequence` (`src/optimise.rs`): accumulate the
per-absolute-offset instruction vectors and the running offset.  The
`unreachable!()` arm cannot fire: the only caller (`reorder`) buffers just
`Incr`/`Set`/`IncrDp`; it is modelled as a skip. -/
def reorderSeqGo : List (Int × List Instruction) → Int → List Instruction →
    List (Int × List Instruction) × Int
  | m, cur, [] => (m, cur)
  | m, cur, .Incr a o :: rest => reorderSeqGo (pushKV m (cur + o) (.Incr a (cur + o))) cur rest
  | m, cur, .Set a o :: rest => reorderSeqGo (pushKV m (cur + o) (.Set a (cur + o))) cur rest
  | m, cur, .IncrDp a :: rest => reorderSeqGo m (cur + a) rest
  | m, cur, _ :: rest => reorderSeqGo m cur rest

/-- Insertion step of the key-ordered sort used to model `sort_by`. -/
def insertSorted (e : Int × List Instruction) :
    List (Int × List Instruction) → List (Int × List Instruction)
  | [] => [e]
  | f :: t => if e.1 ≤ f.1 then e :: f :: t else f :: insertSorted e t

/-- Sort the hash-map entries by key (insertion sort).  Rust's `sort_by`
with `a.0.cmp(&b.0)` is a comparison sort; the keys of the map are
distinct, so every comparison sort produces this same list. -/
def sortByKey : List (Int × List Instruction) → List (Int × List Instruction)
  | [] => []
  | e :: t => insertSorted e (sortByKey t)

/-- `order_hmap_values` of `src/optimise.rs`: values sorted by key. -/
def order_hmap_values (m : List (Int × List Instruction)) : List (List Instruction) :=
  (sortByKey m).map Prod.snd

/-- `reorder_sequence` of `src/optimise.rs`. -/
def reorder_sequence (insts : List Instruction) : List Instruction :=
  let r := reorderSeqGo [] 0 insts
  (order_hmap_values r.1).flatten ++ (if r.2 ≠ 0 then [.IncrDp r.2] else [])

/-- Is the instruction buffered by `reorder` (`Incr`/`Set`/`IncrDp`)? -/
def isISD : Instruction → Bool
  | .Incr _ _ => true
  | .Set _ _ => true
  | .IncrDp _ => true
  | _ => false

/-- The loop of `LinkedInstructions::reorder` (`src/optimise.rs`): `sq` is
the `sequence` buffer. -/
def reorderGo : List Instruction → List Instruction → List Instruction
  | sq, [] => if sq.isEmpty then [] else reorder_sequence sq
  | sq, i :: rest =>
    if isISD i then reorderGo (sq ++ [i]) rest
    else (if sq.isEmpty then [] else reorder_sequence sq) ++ i :: reorderGo [] rest

/-- `LinkedInstructions::reorder` of `src/optimise.rs`. -/
def reorder (l : List Instruction) : List Instruction := reorderGo [] l

/-- The pass-selection flags of `Optimisations` (`src/optimise.rs`);
`COMBINE_SCAN_LOOPS` is commented out in the pipeline and omitted. -/
structure Optimisations where
  combine_clears : Bool
  group_instructions : Bool
  reorder_instructions : Bool
  combine_multiply_loops : Bool

/-- `MAX_OPT_ITER` of `src/optimise.rs`. -/
def MAX_OPT_ITER : Nat := 20

/-- `UnlinkedInstructions::optimise_single_pass` of `src/optimise.rs`:
link, then apply each enabled pass followed by a relink.  The outer
`Option` is `none` exactly when a modelled panic occurs
(`combine_clears`' `unwrap`s). -/
def optimise_single_pass (opts : Optimisations)
    (enum : List (Int × Int) → List (Int × Int)) (l : List Instruction) :
    Option (Except Error (List Instruction)) :=
  match link l with
  | .error e => some (.error e)
  | .ok li0 =>
    match if opts.combine_clears then (combine_clears li0).map link else some (.ok li0) with
    | none => none
    | some (.error e) => some (.error e)
    | some (.ok li1) =>
      match if opts.group_instructions then link (group_instructions li1) else .ok li1 with
      | .error e => some (.error e)
      | .ok li2 =>
        match if opts.reorder_instructions then link (reorder li2) else .ok li2 with
        | .error e => some (.error e)
        | .ok li3 =>
          match if opts.combine_multiply_loops then link (combine_multiply_loops enum li3) else .ok li3 with
          | .error e => some (.error e)
          | .ok li4 => some (.ok li4)

/-- The `while` loop of `UnlinkedInstructions::optimise`
(`src/optimise.rs`): `prev` unlinked, `result` linked.  The guard
`prev.link()? != result && counter <= MAX_OPT_ITER` evaluates the
fallible link first. -/
def optimiseLoop (opts : Optimisations)
    (enum : List (Int × Int) → List (Int × Int)) :
    Nat → List Instruction → List Instruction →
    Option (Except Error (List Instruction))
  | counter, prev, result =>
    match link prev with
    | .error e => some (.error e)
    | .ok pl =>
      if pl ≠ result ∧ counter ≤ MAX_OPT_ITER then
        match optimise_single_pass opts enum result with
        | none => none
        | some (.error e) => some (.error e)
        | some (.ok r2) => optimiseLoop opts enum (counter + 1) result r2
      else some (.ok result)
termination_by counter _ _ => MAX_OPT_ITER + 1 - counter
decreasing_by simp [MAX_OPT_ITER] at *; omega

/-- `UnlinkedInstructions::optimise` of `src/optimise.rs`. -/
def optimise (opts : Optimisations)
    (enum : List (Int × Int) → List (Int × Int)) (l : List Instruction) :
    Option (Except Error (List Instruction)) :=
  match optimise_single_pass opts enum l with
  | none => none
  | some (.error e) => some (.error e)
  | some (.ok r1) => optimiseLoop opts enum 0 l r1

/-- Big-endian byte decomposition of a `u64` value (`to_be_bytes`). -/
def be8 (u : Nat) : List Nat :=
  [u / 2 ^ 56 % 256, u / 2 ^ 48 % 256, u / 2 ^ 40 % 256, u / 2 ^ 32 % 256,
   u / 2 ^ 24 % 256, u / 2 ^ 16 % 256, u / 2 ^ 8 % 256, u % 256]

/-- Rust's `as u8` cast of an `i8`/`Int` value. -/
def u8cast (x : Int) : Nat := (x % 256).toNat

/-- `i64::to_be_bytes`: two's-complement representation, big-endian. -/
def i64bytes (x : Int) : List Nat := be8 ((x % 2 ^ 64).toNat)

/-- `u64::to_be_bytes` (destinations are in-range `Nat`s). -/
def u64bytes (n : Nat) : List Nat := be8 n

/-- `Instruction::to_bytecode` of `src/instruction/mod.rs`: the current
opcode table (0 `IncrDp`, 1 `Incr`, 2 `BranchIfZero`, 3 `BranchIfNotZero`,
4 `Read`, 5 `Write`, 6 `Set`, 7 `Mul`). -/
def to_bytecode : Instruction → List Nat
  | .IncrDp a => 0 :: i64bytes a
  | .Incr a o => 1 :: u8cast a :: i64bytes o
  | .BranchIfZero d => 2 :: u64bytes d
  | .BranchIfNotZero d => 3 :: u64bytes d
  | .Read => [4]
  | .Write => [5]
  | .Set a o => 6 :: u8cast a :: i64bytes o
  | .Mul a o => 7 :: u8cast a :: i64bytes o

/-- `LinkedInstructions::to_bytecode` of `src/instruction/linked.rs`. -/
def program_to_bytecode (l : List Instruction) : List Nat :=
  (l.map to_bytecode).flatten

/-- The instruction enum of `src/instruction.rs`/`src/transpile.rs` (an
earlier generation of the codebase); these are the variants the decoder
`from_bytecode` in `src/instruction/linked.rs` constructs. -/
inductive OldInstruction where
  | Right (n : Nat)
  | Left (n : Nat)
  | Add (n : Nat)
  | Sub (n : Nat)
  | BranchIfZero (n : Nat)
  | BranchIfNotZero (n : Nat)
  | Read
  | Write
  | Clear
deriving DecidableEq, Repr

/-- `u64::from_be_bytes` of eight byte values. -/
def beVal (b1 b2 b3 b4 b5 b6 b7 b8 : Nat) : Nat :=
  ((((((b1 * 256 + b2) * 256 + b3) * 256 + b4) * 256 + b5) * 256 + b6) * 256 + b7) * 256 + b8

/-- `LinkedInstructions::from_bytecode` of `src/instruction/linked.rs`:
the decoder of the OLD opcode table (0 `Right`, 1 `Left`, 2 `Add`,
3 `Sub`, 4 `BranchIfZero`, 5 `BranchIfNotZero`, 6 `Read`, 7 `Write`,
8 `Clear`).  A truncated payload makes `byte_iter.next().unwrap()` panic
and an unknown opcode hits `unreachable!()`; both are `none`. -/
def from_bytecode : List Nat → Option (List OldInstruction)
  | [] => some []
  | 0 :: b1 :: b2 :: b3 :: b4 :: b5 :: b6 :: b7 :: b8 :: rest =>
    (from_bytecode rest).map (fun t => .Right (beVal b1 b2 b3 b4 b5 b6 b7 b8) :: t)
  | 1 :: b1 :: b2 :: b3 :: b4 :: b5 :: b6 :: b7 :: b8 :: rest =>
    (from_bytecode rest).map (fun t => .Left (beVal b1 b2 b3 b4 b5 b6 b7 b8) :: t)
  | 2 :: b :: rest => (from_bytecode rest).map (fun t => .Add b :: t)
  | 3 :: b :: rest => (from_bytecode rest).map (fun t => .Sub b :: t)
  | 4 :: b1 :: b2 :: b3 :: b4 :: b5 :: b6 :: b7 :: b8 :: rest =>
    (from_bytecode rest).map (fun t => .BranchIfZero (beVal b1 b2 b3 b4 b5 b6 b7 b8) :: t)
  | 5 :: b1 :: b2 :: b3 :: b4 :: b5 :: b6 :: b7 :: b8 :: rest =>
    (from_bytecode rest).map (fun t => .BranchIfNotZero (beVal b1 b2 b3 b4 b5 b6 b7 b8) :: t)
  | 6 :: rest => (from_bytecode rest).map (fun t => .Read :: t)
  | 7 :: rest => (from_bytecode rest).map (fun t => .Write :: t)
  | 8 :: rest => (from_bytecode rest).map (fun t => .Clear :: t)
  | _ :: _ => none

/-- Reinterpret a byte as a signed two's-complement `i8` value. -/
def asI8 (b : Nat) : Int := if b < 128 then (b : Int) else (b : Int) - 256

/-- Reinterpret a `u64` value as a signed two's-complement `i64` value. -/
def asI64 (u : Nat) : Int := if u < 2 ^ 63 then (u : Int) else (u : Int) - 2 ^ 64

/-- Modelled from the spec: the decoder for the CURRENT opcode table of
spec §4.3 is missing from `src/` (the shipped `from_bytecode` decodes the
old table above); this is the §4.3 table — 1-byte opcode, big-endian
payloads, unrecognised opcode a fatal error. -/
def decode_spec : List Nat → Option (List Instruction)
  | [] => some []
  | 0 :: b1 :: b2 :: b3 :: b4 :: b5 :: b6 :: b7 :: b8 :: rest =>
    (decode_spec rest).map (fun t => .IncrDp (asI64 (beVal b1 b2 b3 b4 b5 b6 b7 b8)) :: t)
  | 1 :: a :: b1 :: b2 :: b3 :: b4 :: b5 :: b6 :: b7 :: b8 :: rest =>
    (decode_spec rest).map (fun t => .Incr (asI8 a) (asI64 (beVal b1 b2 b3 b4 b5 b6 b7 b8)) :: t)
  | 2 :: b1 :: b2 :: b3 :: b4 :: b5 :: b6 :: b7 :: b8 :: rest =>
    (decode_spec rest).map (fun t => .BranchIfZero (beVal b1 b2 b3 b4 b5 b6 b7 b8) :: t)
  | 3 :: b1 :: b2 :: b3 :: b4 :: b5 :: b6 :: b7 :: b8 :: rest =>
    (decode_spec rest).map (fun t => .BranchIfNotZero (beVal b1 b2 b3 b4 b5 b6 b7 b8) :: t)
  | 4 :: rest => (decode_spec rest).map (fun t => .Read :: t)
  | 5 :: rest => (decode_spec rest).map (fun t => .Write :: t)
  | 6 :: a :: b1 :: b2 :: b3 :: b4 :: b5 :: b6 :: b7 :: b8 :: rest =>
    (decode_spec rest).map (fun t => .Set (asI8 a) (asI64 (beVal b1 b2 b3 b4 b5 b6 b7 b8)) :: t)
  | 7 :: a :: b1 :: b2 :: b3 :: b4 :: b5 :: b6 :: b7 :: b8 :: rest =>
    (decode_spec rest).map (fun t => .Mul (asI8 a) (asI64 (beVal b1 b2 b3 b4 b5 b6 b7 b8)) :: t)
  | _ :: _ => none

/-- Well-formedness of an instruction's machine-integer fields: `amount`
in `i8` (`Incr`/`Set`/`Mul`) or `i64` (`IncrDp`) range, `offset` in `i64`
range, `destination` in `u64` range. -/
def wfInstB : Instruction → Bool
  | .IncrDp a => decide (-(2 ^ 63) ≤ a ∧ a < 2 ^ 63)
  | .Incr a o => decide ((-128 ≤ a ∧ a < 128) ∧ -(2 ^ 63) ≤ o ∧ o < 2 ^ 63)
  | .BranchIfZero d => decide (d < 2 ^ 64)
  | .BranchIfNotZero d => decide (d < 2 ^ 64)
  | .Read => true
  | .Write => true
  | .Set a o => decide ((-128 ≤ a ∧ a < 128) ∧ -(2 ^ 63) ≤ o ∧ o < 2 ^ 63)
  | .Mul a o => decide ((-128 ≤ a ∧ a < 128) ∧ -(2 ^ 63) ≤ o ∧ o < 2 ^ 63)

/-! ## Interpreter over linked IR (spec §4.5) -/

/-- Ring index of a tape access: `(dp + offset) mod 65536` on the signed
value of the offset. -/
def cellIx (dp : Nat) (o : Int) : Nat := (((dp : Int) + o) % 65536).toNat

/-- Wrapping byte value of an integer (cells are wrapping `u8`). -/
def wrapByte (x : Int) : Nat := (x % 256).toNat

/-- Point update of a tape. -/
def updTape (t : Nat → Nat) (c v : Nat) : Nat → Nat :=
  fun x => if x = c then v else t x

/-- Modelled from the spec: interpreter state of §4.5.  The direct
interpreter over linked IR is missing from `src/`
(`src/interpret.rs` is a byte-level interpreter over raw source bytes);
state is instruction pointer, data pointer, tape, remaining input and
accumulated output. -/
structure IState where
  ip : Nat
  dp : Nat
  tape : Nat → Nat
  inp : List Nat
  outp : List Nat

/-- Observable outcome of a run: normal termination with the output
stream, the fatal `CouldNotReadInput` on EOF, or fuel exhaustion. -/
inductive RunResult where
  | halted (output : List Nat)
  | readErr
  | fuelOut
deriving DecidableEq, Repr

/-- Modelled from the spec: the per-op small-step interpreter of §4.5,
missing from `src/` (see `IState`).  Fuel-indexed; `fuelOut` when the
step budget is exhausted, termination when `ip` falls outside the
program. -/
def run (prog : List Instruction) : Nat → IState → RunResult
  | 0, _ => .fuelOut
  | fuel + 1, s =>
    match prog[s.ip]? with
    | none => .halted s.outp
    | some inst =>
      match inst with
      | .IncrDp a => run prog fuel { s with ip := s.ip + 1, dp := cellIx s.dp a }
      | .Incr a o =>
        let c := cellIx s.dp o
        run prog fuel { s with ip := s.ip + 1, tape := updTape s.tape c (wrapByte (s.tape c + a)) }
      | .Set a o =>
        let c := cellIx s.dp o
        run prog fuel { s with ip := s.ip + 1, tape := updTape s.tape c (wrapByte a) }
      | .Mul a o =>
        let c := cellIx s.dp o
        let v := wrapByte (s.tape c + s.tape s.dp * a)
        run prog fuel { s with ip := s.ip + 1, tape := updTape s.tape c v }
      | .BranchIfZero d =>
        if s.tape s.dp = 0 then run prog fuel { s with ip := d }
        else run prog fuel { s with ip := s.ip + 1 }
      | .BranchIfNotZero d =>
        if s.tape s.dp = 0 then run prog fuel { s with ip := s.ip + 1 }
        else run prog fuel { s with ip := d }
      | .Read =>
        match s.inp with
        | [] => .readErr
        | b :: bs =>
          run prog fuel { s with ip := s.ip + 1, tape := updTape s.tape s.dp (b % 256), inp := bs }
      | .Write => run prog fuel { s with ip := s.ip + 1, outp := s.outp ++ [s.tape s.dp] }

/-- The all-zero initial state on a given input stream. -/
def initState (inp : List Nat) : IState :=
  { ip := 0, dp := 0, tape := fun _ => 0, inp := inp, outp := [] }

/-! ## Data-pointer motion of the byte interpreter (`src/interpret.rs`) -/

/-- `MEM_SIZE` of `src/interpret.rs`. -/
def MEM_SIZE : Nat := 65536

/-- The `b'<'` step `self.dp = (self.dp - 1) % MEM_SIZE` as compiled with
overflow checks: `usize` subtraction panics (`none`) when `dp = 0`. -/
def dpDecChecked (dp : Nat) : Option Nat :=
  if dp = 0 then none else some ((dp - 1) % MEM_SIZE)

/-- The same step as compiled without overflow checks on a 64-bit target:
`usize` subtraction wraps modulo `2^64` before the `% MEM_SIZE`. -/
def dpDecRelease (dp : Nat) : Nat := ((dp + (2 ^ 64 - 1)) % 2 ^ 64) % MEM_SIZE

/-- The pointer motion the spec mandates: signed `(dp - 1) mod 65536`. -/
def dpDecSpec (dp : Nat) : Nat := (((dp : Int) - 1) % 65536).toNat

/-- The `b'>'` step `self.dp = (self.dp + 1) % MEM_SIZE`. -/
def dpInc (dp : Nat) : Nat := (dp + 1) % MEM_SIZE

/-! ## Shape predicates used in claim statements -/

/-- Is the instruction a `BranchIfNotZero`? -/
def isBNZb : Instruction → Bool
  | .BranchIfNotZero _ => true
  | _ => false

/-- Decidable check that every `BranchIfZero` in the list is followed,
strictly later, by some `BranchIfNotZero` — the shape of linked
instruction sequences that `combine_clears`' two `unwrap`s rely on. -/
def bizB (l : List Instruction) : Bool :=
  (List.range l.length).all fun i =>
    match l[i]? with
    | some (.BranchIfZero _) => (l.drop (i + 1)).any isBNZb
    | _ => true

/-- The same property as a proposition. -/
def HasLaterBNZ (l : List Instruction) : Prop :=
  ∀ (i d : Nat), l[i]? = some (Instruction.BranchIfZero d) →
    ∃ (j r : Nat), i < j ∧ l[j]? = some (Instruction.BranchIfNotZero r)

/-- Decidable check that every `BranchIfZero`'s destination holds a
`BranchIfNotZero` (one half of the linked-IR invariant). -/
def linkedBIZb (l : List Instruction) : Bool :=
  (List.range l.length).all fun p =>
    match l[p]? with
    | some (.BranchIfZero q) =>
      match l[q]? with
      | some (.BranchIfNotZero _) => true
      | _ => false
    | _ => true

/-!
## Theorems

The remainder of the file proves and refutes the specification claims
over the definitions above.
-/

instance {ε α : Type} [DecidableEq ε] [DecidableEq α] : DecidableEq (Except ε α) := fun x y =>
  match x, y with
  | .ok a, .ok b =>
    if h : a = b then .isTrue (by rw [h]) else .isFalse (by intro hh; cases hh; exact h rfl)
  | .ok _, .error _ => .isFalse (by intro hh; cases hh)
  | .error _, .ok _ => .isFalse (by intro hh; cases hh)
  | .error e, .error f =>
    if h : e = f then .isTrue (by rw [h]) else .isFalse (by intro hh; cases hh; exact h rfl)

lemma beVal_be8 (u : Nat) (h : u < 2 ^ 64) :
    beVal (u / 2 ^ 56 % 256) (u / 2 ^ 48 % 256) (u / 2 ^ 40 % 256) (u / 2 ^ 32 % 256)
      (u / 2 ^ 24 % 256) (u / 2 ^ 16 % 256) (u / 2 ^ 8 % 256) (u % 256) = u := by
  unfold beVal; omega

lemma i64toNat_lt (x : Int) : (x % 2 ^ 64).toNat < 2 ^ 64 := by
  simp only [show ((2 : Int) ^ 64 = 18446744073709551616) from by norm_num,
    show ((2 : Nat) ^ 64 = 18446744073709551616) from by norm_num]
  omega

lemma asI64_of_i64 (x : Int) (h1 : -(2 ^ 63) ≤ x) (h2 : x < 2 ^ 63) :
    asI64 ((x % 2 ^ 64).toNat) = x := by
  unfold asI64
  simp only [show ((2 : Int) ^ 64 = 18446744073709551616) from by norm_num,
    show ((2 : Int) ^ 63 = 9223372036854775808) from by norm_num,
    show ((2 : Nat) ^ 63 = 9223372036854775808) from by norm_num] at *
  omega

lemma asI8_u8cast (a : Int) (h1 : -128 ≤ a) (h2 : a < 128) : asI8 (u8cast a) = a := by
  unfold asI8 u8cast; omega

lemma decode_spec_op0 (b1 b2 b3 b4 b5 b6 b7 b8 : Nat) (t : List Nat) :
    decode_spec (0 :: b1 :: b2 :: b3 :: b4 :: b5 :: b6 :: b7 :: b8 :: t) =
      (decode_spec t).map (fun r => .IncrDp (asI64 (beVal b1 b2 b3 b4 b5 b6 b7 b8)) :: r) := rfl

lemma decode_spec_op1 (a b1 b2 b3 b4 b5 b6 b7 b8 : Nat) (t : List Nat) :
    decode_spec (1 :: a :: b1 :: b2 :: b3 :: b4 :: b5 :: b6 :: b7 :: b8 :: t) =
      (decode_spec t).map (fun r => .Incr (asI8 a) (asI64 (beVal b1 b2 b3 b4 b5 b6 b7 b8)) :: r) := rfl

lemma decode_spec_op2 (b1 b2 b3 b4 b5 b6 b7 b8 : Nat) (t : List Nat) :
    decode_spec (2 :: b1 :: b2 :: b3 :: b4 :: b5 :: b6 :: b7 :: b8 :: t) =
      (decode_spec t).map (fun r => .BranchIfZero (beVal b1 b2 b3 b4 b5 b6 b7 b8) :: r) := rfl

lemma decode_spec_op3 (b1 b2 b3 b4 b5 b6 b7 b8 : Nat) (t : List Nat) :
    decode_spec (3 :: b1 :: b2 :: b3 :: b4 :: b5 :: b6 :: b7 :: b8 :: t) =
      (decode_spec t).map (fun r => .BranchIfNotZero (beVal b1 b2 b3 b4 b5 b6 b7 b8) :: r) := rfl

lemma decode_spec_op4 (t : List Nat) :
    decode_spec (4 :: t) = (decode_spec t).map (fun r => .Read :: r) := rfl

lemma decode_spec_op5 (t : List Nat) :
    decode_spec (5 :: t) = (decode_spec t).map (fun r => .Write :: r) := rfl

lemma decode_spec_op6 (a b1 b2 b3 b4 b5 b6 b7 b8 : Nat) (t : List Nat) :
    decode_spec (6 :: a :: b1 :: b2 :: b3 :: b4 :: b5 :: b6 :: b7 :: b8 :: t) =
      (decode_spec t).map (fun r => .Set (asI8 a) (asI64 (beVal b1 b2 b3 b4 b5 b6 b7 b8)) :: r) := rfl

lemma decode_spec_op7 (a b1 b2 b3 b4 b5 b6 b7 b8 : Nat) (t : List Nat) :
    decode_spec (7 :: a :: b1 :: b2 :: b3 :: b4 :: b5 :: b6 :: b7 :: b8 :: t) =
      (decode_spec t).map (fun r => .Mul (asI8 a) (asI64 (beVal b1 b2 b3 b4 b5 b6 b7 b8)) :: r) := rfl

lemma decode_encode (l : List Instruction) (h : l.all wfInstB = true) :
    decode_spec (program_to_bytecode l) = some l := by
  induction l with
  | nil => rfl
  | cons i t ih =>
    rw [List.all_cons, Bool.and_eq_true] at h
    have ht := ih h.2
    have hi := h.1
    have hsplit : program_to_bytecode (i :: t) = to_bytecode i ++ program_to_bytecode t := by
      simp [program_to_bytecode]
    rw [hsplit]
    cases i with
    | IncrDp a =>
      rw [wfInstB, decide_eq_true_eq] at hi
      simp only [to_bytecode, i64bytes, be8, List.cons_append, List.nil_append]
      rw [decode_spec_op0, ht, beVal_be8 _ (i64toNat_lt a), asI64_of_i64 a hi.1 hi.2]
      rfl
    | Incr a o =>
      rw [wfInstB, decide_eq_true_eq] at hi
      simp only [to_bytecode, i64bytes, be8, List.cons_append, List.nil_append]
      rw [decode_spec_op1, ht, beVal_be8 _ (i64toNat_lt o), asI64_of_i64 o hi.2.1 hi.2.2,
        asI8_u8cast a hi.1.1 hi.1.2]
      rfl
    | BranchIfZero d =>
      rw [wfInstB, decide_eq_true_eq] at hi
      simp only [to_bytecode, u64bytes, be8, List.cons_append, List.nil_append]
      rw [decode_spec_op2, ht, beVal_be8 d hi]
      rfl
    | BranchIfNotZero d =>
      rw [wfInstB, decide_eq_true_eq] at hi
      simp only [to_bytecode, u64bytes, be8, List.cons_append, List.nil_append]
      rw [decode_spec_op3, ht, beVal_be8 d hi]
      rfl
    | Read =>
      simp only [to_bytecode, List.cons_append, List.nil_append]
      rw [decode_spec_op4, ht]
      rfl
    | Write =>
      simp only [to_bytecode, List.cons_append, List.nil_append]
      rw [decode_spec_op5, ht]
      rfl
    | Set a o =>
      rw [wfInstB, decide_eq_true_eq] at hi
      simp only [to_bytecode, i64bytes, be8, List.cons_append, List.nil_append]
      rw [decode_spec_op6, ht, beVal_be8 _ (i64toNat_lt o), asI64_of_i64 o hi.2.1 hi.2.2,
        asI8_u8cast a hi.1.1 hi.1.2]
      rfl
    | Mul a o =>
      rw [wfInstB, decide_eq_true_eq] at hi
      simp only [to_bytecode, i64bytes, be8, List.cons_append, List.nil_append]
      rw [decode_spec_op7, ht, beVal_be8 _ (i64toNat_lt o), asI64_of_i64 o hi.2.1 hi.2.2,
        asI8_u8cast a hi.1.1 hi.1.2]
      rfl

/-- C2: the current encoder `to_bytecode` does implement the §4.3 table —
a decoder faithful to §4.3 recovers every well-formed program exactly —
but the decoder actually shipped (`from_bytecode` of
`src/instruction/linked.rs`) implements the old opcode table, so
`decode(encode(P)) == P` fails on the code: already for `P = [Write]`
(bytecode `[5]`) the old decoder treats 5 as `BranchIfNotZero` and panics
unwrapping the missing 8-byte payload. -/
theorem claim_C2 :
    (∀ l : List Instruction, l.all wfInstB = true →
      decode_spec (program_to_bytecode l) = some l) ∧
    program_to_bytecode [Instruction.Write] = [5] ∧
    from_bytecode [5] = none :=
  ⟨decode_encode, rfl, rfl⟩

/-- C2 witness: the round-trip conjunct applied at a concrete program. -/
theorem claim_C2_witness :
    ([Instruction.Write].all wfInstB = true) ∧
    decode_spec (program_to_bytecode [Instruction.Write]) = some [Instruction.Write] :=
  ⟨by decide, claim_C2.1 [Instruction.Write] (by decide)⟩

lemma linkGo_of_walk (l : List Instruction) : ∀ (k : Nat) (cur : List Instruction) (st : List Nat),
    (∀ j, walk k l st = .error j → linkGo k l cur st = .error (.MissingOpeningBracket j)) ∧
    (∀ p r, walk k l st = .ok (p :: r) → linkGo k l cur st = .error (.MissingClosingBracket p)) := by
  induction l with
  | nil =>
    intro k cur st
    constructor
    · intro j h; simp [walk] at h
    · intro p r h
      simp only [walk, Except.ok.injEq] at h
      subst h
      rfl
  | cons i rest ih =>
    intro k cur st
    cases i with
    | BranchIfZero d =>
      exact ⟨fun j h => (ih (k + 1) cur (k :: st)).1 j h,
        fun p r h => (ih (k + 1) cur (k :: st)).2 p r h⟩
    | BranchIfNotZero d =>
      cases st with
      | nil =>
        constructor
        · intro j h
          simp only [walk, Except.error.injEq] at h
          subst h
          rfl
        · intro p r h; simp [walk] at h
      | cons op st' =>
        exact ⟨fun j h => (ih (k + 1) _ st').1 j h, fun p r h => (ih (k + 1) _ st').2 p r h⟩
    | IncrDp a => exact ⟨fun j h => (ih (k + 1) cur st).1 j h, fun p r h => (ih (k + 1) cur st).2 p r h⟩
    | Incr a o => exact ⟨fun j h => (ih (k + 1) cur st).1 j h, fun p r h => (ih (k + 1) cur st).2 p r h⟩
    | Read => exact ⟨fun j h => (ih (k + 1) cur st).1 j h, fun p r h => (ih (k + 1) cur st).2 p r h⟩
    | Write => exact ⟨fun j h => (ih (k + 1) cur st).1 j h, fun p r h => (ih (k + 1) cur st).2 p r h⟩
    | Set a o => exact ⟨fun j h => (ih (k + 1) cur st).1 j h, fun p r h => (ih (k + 1) cur st).2 p r h⟩
    | Mul a o => exact ⟨fun j h => (ih (k + 1) cur st).1 j h, fun p r h => (ih (k + 1) cur st).2 p r h⟩

/-- C4 counterexample: on `[[` (two `BranchIfZero`, no closer) the linker
reports `MissingClosingBracket(1)` — the innermost (most recently opened)
unclosed `[` — not the outermost position 0 the claim requires. -/
theorem claim_C4_counterexample :
    link [.BranchIfZero 0, .BranchIfZero 0] = .error (.MissingClosingBracket 1) ∧
    Error.MissingClosingBracket 1 ≠ Error.MissingClosingBracket 0 := by
  decide

/-- C4 (amended): `link` fails with `MissingOpeningBracket(j)` where `j`
is the index at which the stack walk first pops an empty stack, and with
`MissingClosingBracket(p)` where `p` is the TOP of the final stack — the
innermost (most recently opened) unclosed `[`, not the outermost; the
spec's concrete examples `[[]` ↦ `MissingClosingBracket(0)` and `]` ↦
`MissingOpeningBracket(0)` do hold. -/
theorem claim_C4 :
    (∀ (l : List Instruction) (j : Nat), walk 0 l [] = .error j →
      link l = .error (.MissingOpeningBracket j)) ∧
    (∀ (l : List Instruction) (p : Nat) (r : List Nat), walk 0 l [] = .ok (p :: r) →
      link l = .error (.MissingClosingBracket p)) ∧
    link [.BranchIfZero 0, .BranchIfZero 0, .BranchIfNotZero 0] =
      .error (.MissingClosingBracket 0) ∧
    link [.BranchIfNotZero 0] = .error (.MissingOpeningBracket 0) :=
  ⟨fun l j h => (linkGo_of_walk l 0 l []).1 j h,
    fun l p r h => (linkGo_of_walk l 0 l []).2 p r h,
    by decide, by decide⟩

/-- C4 witness: the two walk-based conjuncts applied at `]` and `[[`. -/
theorem claim_C4_witness :
    link [Instruction.BranchIfNotZero 0] = .error (.MissingOpeningBracket 0) ∧
    link [Instruction.BranchIfZero 0, Instruction.BranchIfZero 0] =
      .error (.MissingClosingBracket 1) :=
  ⟨claim_C4.1 [Instruction.BranchIfNotZero 0] 0 (by decide),
    claim_C4.2.1 [Instruction.BranchIfZero 0, Instruction.BranchIfZero 0] 1 [0] (by decide)⟩

/-- C5: the pointer-motion claim is right about the intent and the
concrete value (`<` at `dp = 0` must give 65535) but wrong about the
code: `src/interpret.rs` computes `(self.dp - 1) % MEM_SIZE` on `usize`,
i.e. exactly the platform-dependent unsigned underflow the spec forbids —
under overflow checks (debug profile) the subtraction panics at `dp = 0`
instead of yielding 65535; without checks it happens to agree with the
signed-mod semantics only because 65536 divides `2^64`. -/
theorem claim_C5 :
    dpDecChecked 0 = none ∧
    dpDecRelease 0 = 65535 ∧
    dpDecSpec 0 = 65535 ∧
    (∀ dp : Nat, dp < 2 ^ 64 → dpDecRelease dp = dpDecSpec dp) ∧
    dpInc 65535 = 0 := by
  refine ⟨rfl, by decide, by decide, ?_, by decide⟩
  intro dp h
  unfold dpDecRelease dpDecSpec MEM_SIZE
  simp only [show ((2 : Nat) ^ 64 = 18446744073709551616) from by norm_num] at *
  omega

/-- C5 witness: the release/signed-mod agreement applied at `dp = 1`. -/
theorem claim_C5_witness :
    (1 : Nat) < 2 ^ 64 ∧ dpDecRelease 1 = dpDecSpec 1 :=
  ⟨by norm_num, claim_C5.2.2.2.1 1 (by norm_num)⟩

/-- C7: grouping fusion of two `Incr`s at the same offset is NOT computed
with wrapping arithmetic in the code: `prev_amt + amount` is an unchecked
`i8` addition, which panics under overflow checks (debug profile) on
`Incr{100,0}·Incr{100,0}`; only the release profile wraps to the claimed
`100 + 100 ≡ -56 (mod 256)`. -/
theorem claim_C7 :
    group_instructions_checked [.Incr 100 0, .Incr 100 0] = none ∧
    group_instructions [.Incr 100 0, .Incr 100 0] = [.Incr (-56) 0] := by
  decide

lemma fuse_right_incr_amt (p : Instruction) (a b o : Int) :
    (fuse p (.Incr a o)).isSome = (fuse p (.Incr b o)).isSome := by
  cases p <;> simp [fuse] <;> split <;> simp

lemma fuse_right_set_amt (p : Instruction) (a b o : Int) :
    (fuse p (.Set a o)).isSome = (fuse p (.Set b o)).isSome := by
  cases p <;> simp [fuse] <;> split <;> simp

lemma fuse_right_incr_set (p : Instruction) (a b o : Int) :
    (fuse p (.Incr a o)).isSome = (fuse p (.Set b o)).isSome := by
  cases p <;> simp [fuse] <;> split <;> simp

lemma fuse_right_incrdp_amt (p : Instruction) (a b : Int) :
    (fuse p (.IncrDp a)).isSome = (fuse p (.IncrDp b)).isSome := by
  cases p <;> simp [fuse]

/-- A fused pair keeps the "fusability class" of its first component:
whatever fuses with the merged instruction would have fused with the
original left element. -/
lemma fuse_congr (x y m : Instruction) (h : fuse x y = some m) (p : Instruction) :
    (fuse p m).isSome = (fuse p x).isSome := by
  cases x <;> cases y <;> simp only [fuse] at h <;>
    first
    | exact (Option.noConfusion h)
    | skip
  case IncrDp.IncrDp a b =>
    rw [Option.some.injEq] at h
    subst h
    exact fuse_right_incrdp_amt p _ a
  case Incr.Incr a o b o' =>
    split at h
    case isTrue heq =>
      rw [Option.some.injEq] at h
      subst h; subst heq
      exact fuse_right_incr_amt p _ a o
    case isFalse => exact (Option.noConfusion h)
  case Incr.Set a o b o' =>
    split at h
    case isTrue heq =>
      rw [Option.some.injEq] at h
      subst h; subst heq
      exact (fuse_right_incr_set p a b o).symm
    case isFalse => exact (Option.noConfusion h)
  case Set.Incr a o b o' =>
    split at h
    case isTrue heq =>
      rw [Option.some.injEq] at h
      subst h; subst heq
      exact fuse_right_set_amt p _ a o
    case isFalse => exact (Option.noConfusion h)
  case Set.Set a o b o' =>
    split at h
    case isTrue heq =>
      rw [Option.some.injEq] at h
      subst h; subst heq
      exact fuse_right_set_amt p b a o
    case isFalse => exact (Option.noConfusion h)

/-- The coalesce loop emits a non-empty list whose head has the
fusability class of the pending element. -/
lemma coalesceGo_head (l : List Instruction) : ∀ prev : Instruction,
    ∃ hd tl, coalesceGo prev l = hd :: tl ∧
      ∀ p, (fuse p hd).isSome = (fuse p prev).isSome := by
  induction l with
  | nil => exact fun prev => ⟨prev, [], rfl, fun p => rfl⟩
  | cons x rest ih =>
    intro prev
    cases hf : fuse prev x with
    | some m =>
      obtain ⟨hd, tl, heq, hcl⟩ := ih m
      refine ⟨hd, tl, ?_, fun p => (hcl p).trans (fuse_congr prev x m hf p)⟩
      simp [coalesceGo, hf, heq]
    | none =>
      refine ⟨prev, coalesceGo x rest, ?_, fun p => rfl⟩
      simp [coalesceGo, hf]

/-- No two adjacent elements of the coalesce output can still be fused. -/
lemma coalesceGo_chain (l : List Instruction) : ∀ prev : Instruction,
    List.Chain' (fun a b => fuse a b = none) (coalesceGo prev l) := by
  induction l with
  | nil => intro prev; simp [coalesceGo]
  | cons x rest ih =>
    intro prev
    cases hf : fuse prev x with
    | some m => simpa [coalesceGo, hf] using ih m
    | none =>
      obtain ⟨hd, tl, heq, hcl⟩ := coalesceGo_head rest x
      have hchain := ih x
      rw [heq] at hchain
      have hnone : fuse prev hd = none := by
        have h1 : (fuse prev hd).isSome = (fuse prev x).isSome := hcl prev
        rw [hf] at h1
        cases hfd : fuse prev hd with
        | none => rfl
        | some z => rw [hfd] at h1; simp at h1
      rw [show coalesceGo prev (x :: rest) = prev :: coalesceGo x rest from by
        simp [coalesceGo, hf], heq]
      exact List.chain'_cons.mpr ⟨hnone, hchain⟩

/-- C6 counterexample: dropping the fused-to-zero `Incr{0,0}` makes the
two `IncrDp`s adjacent in the final output of a single
`group_instructions` application, and that pair still matches the
`IncrDp·IncrDp` fusion rule — contradicting "no two adjacent instructions
in the output match any of its fusion rules". -/
theorem claim_C6_counterexample :
    group_instructions [.IncrDp 1, .Incr 1 0, .Incr (-1) 0, .IncrDp 2] =
      [.IncrDp 1, .IncrDp 2] ∧
    fuse (.IncrDp 1) (.IncrDp 2) = some (.IncrDp 3) := by
  decide

/-- C6 (amended): after a single application of `group_instructions` no
`Incr{0,_}` or `IncrDp{0}` remains and `Set` instructions (in particular
`Set{0,0}`) are never dropped by the neutralisation filter; the
no-adjacent-fusible-pair guarantee holds for the fusion (coalesce) stage's
output, but the subsequent neutral-instruction drop can make two fusible
instructions adjacent in the final output (the convergence loop fuses
those in a later iteration). -/
theorem claim_C6 :
    (∀ (l : List Instruction) (i : Instruction),
      i ∈ group_instructions l → isNeutralB i = false) ∧
    (∀ (l : List Instruction) (a o : Int),
      Instruction.Set a o ∈ coalesceInsts l →
        Instruction.Set a o ∈ group_instructions l) ∧
    (∀ l : List Instruction,
      List.Chain' (fun a b => fuse a b = none) (coalesceInsts l)) := by
  refine ⟨?_, ?_, ?_⟩
  · intro l i hi
    have := List.of_mem_filter hi
    simpa using this
  · intro l a o hmem
    exact List.mem_filter.mpr ⟨hmem, by simp [isNeutralB]⟩
  · intro l
    cases l with
    | nil => simp [coalesceInsts]
    | cons x rest => exact coalesceGo_chain rest x

lemma linkGo_pres (l : List Instruction) :
    ∀ (k : Nat) (cur out : List Instruction) (st : List Nat),
    linkGo k l cur st = .ok out → ∀ j, j ∉ st → j < k → out[j]? = cur[j]? := by
  induction l with
  | nil =>
    intro k cur out st h j hst hk
    cases st with
    | nil => simp only [linkGo, Except.ok.injEq] at h; rw [h]
    | cons p r => simp [linkGo] at h
  | cons i rest ih =>
    intro k cur out st h j hst hk
    cases i with
    | BranchIfZero d =>
      refine (ih (k + 1) cur out (k :: st) h j ?_ (by omega))
      intro hmem
      rcases List.mem_cons.mp hmem with h1 | h2
      · omega
      · exact hst h2
    | BranchIfNotZero d =>
      cases st with
      | nil => simp [linkGo] at h
      | cons op st' =>
        have hop : j ≠ op := fun he => hst (he ▸ List.mem_cons_self op st')
        have hjk : j ≠ k := by omega
        have := ih (k + 1) _ out st' h j
          (fun hmem => hst (List.mem_cons_of_mem op hmem)) (by omega)
        rw [this, List.getElem?_set_ne hop.symm, List.getElem?_set_ne hjk.symm]
    | IncrDp a => exact ih (k + 1) cur out st h j hst (by omega)
    | Incr a o => exact ih (k + 1) cur out st h j hst (by omega)
    | Read => exact ih (k + 1) cur out st h j hst (by omega)
    | Write => exact ih (k + 1) cur out st h j hst (by omega)
    | Set a o => exact ih (k + 1) cur out st h j hst (by omega)
    | Mul a o => exact ih (k + 1) cur out st h j hst (by omega)

lemma linkGo_pairs (l : List Instruction) :
    ∀ (k : Nat) (cur out : List Instruction) (st : List Nat)
      (ps : List (Nat × Nat)) (stF : List Nat),
    linkGo k l cur st = .ok out →
    pairsGo k l st = some (ps, stF) →
    (∀ p ∈ st, p < k) →
    List.Pairwise (fun a b => b < a) st →
    cur.length = k + l.length →
    ∀ pr ∈ ps, pr.1 < pr.2 ∧ out[pr.1]? = some (.BranchIfZero pr.2) ∧
      out[pr.2]? = some (.BranchIfNotZero pr.1) := by
  induction l with
  | nil =>
    intro k cur out st ps stF _ hp _ _ _ pr hpr
    simp only [pairsGo, Option.some.injEq, Prod.mk.injEq] at hp
    rw [← hp.1] at hpr
    simp at hpr
  | cons i rest ih =>
    intro k cur out st ps stF h hp hb hsort hlen
    cases i with
    | BranchIfZero d =>
      refine ih (k + 1) cur out (k :: st) ps stF h hp ?_ ?_ (by simp at hlen ⊢; omega)
      · intro p hpm
        rcases List.mem_cons.mp hpm with h1 | h2
        · omega
        · have := hb p h2; omega
      · exact List.pairwise_cons.mpr ⟨fun b hbm => hb b hbm, hsort⟩
    | BranchIfNotZero d =>
      cases st with
      | nil => simp [linkGo] at h
      | cons op st' =>
        simp only [pairsGo, Option.map_eq_some'] at hp
        obtain ⟨⟨ps', stF'⟩, hp', heq⟩ := hp
        rw [Prod.mk.injEq] at heq
        obtain ⟨hps, hstF⟩ := heq
        have hople : op < k := hb op (List.mem_cons_self op st')
        have hklen : k < cur.length := by simp at hlen; omega
        have hsort' := List.pairwise_cons.mp hsort
        have hopnotin : op ∉ st' := fun hm => by have := hsort'.1 op hm; omega
        have hknotin : k ∉ st' := fun hm => by have := hb k (List.mem_cons_of_mem op hm); omega
        intro pr hpr
        rw [← hps] at hpr
        rcases List.mem_cons.mp hpr with hpr1 | hpr2
        · subst hpr1
          refine ⟨hople, ?_, ?_⟩
          · have hpres := linkGo_pres rest (k + 1)
              ((cur.set k (.BranchIfNotZero op)).set op (.BranchIfZero k)) out st' h op
              hopnotin (by omega)
            rw [hpres, List.getElem?_set_eq_of_lt]
            rw [List.length_set]
            omega
          · have hpres := linkGo_pres rest (k + 1)
              ((cur.set k (.BranchIfNotZero op)).set op (.BranchIfZero k)) out st' h k
              hknotin (by omega)
            rw [hpres, List.getElem?_set_ne (by omega), List.getElem?_set_eq_of_lt _ hklen]
        · refine ih (k + 1) _ out st' ps' stF' h hp' ?_ hsort'.2 ?_ pr hpr2
          · intro p hpm; have := hb p (List.mem_cons_of_mem op hpm); omega
          · simp [List.length_set] at hlen ⊢; omega
    | IncrDp a =>
      exact ih (k + 1) cur out st ps stF h hp (fun p hm => by have := hb p hm; omega) hsort
        (by simp at hlen ⊢; omega)
    | Incr a o =>
      exact ih (k + 1) cur out st ps stF h hp (fun p hm => by have := hb p hm; omega) hsort
        (by simp at hlen ⊢; omega)
    | Read =>
      exact ih (k + 1) cur out st ps stF h hp (fun p hm => by have := hb p hm; omega) hsort
        (by simp at hlen ⊢; omega)
    | Write =>
      exact ih (k + 1) cur out st ps stF h hp (fun p hm => by have := hb p hm; omega) hsort
        (by simp at hlen ⊢; omega)
    | Set a o =>
      exact ih (k + 1) cur out st ps stF h hp (fun p hm => by have := hb p hm; omega) hsort
        (by simp at hlen ⊢; omega)
    | Mul a o =>
      exact ih (k + 1) cur out st ps stF h hp (fun p hm => by have := hb p hm; omega) hsort
        (by simp at hlen ⊢; omega)

lemma pairsGo_ok (l : List Instruction) :
    ∀ (k : Nat) (cur : List Instruction) (st : List Nat) (ps : List (Nat × Nat)),
    pairsGo k l st = some (ps, []) → ∃ out, linkGo k l cur st = .ok out := by
  induction l with
  | nil =>
    intro k cur st ps hp
    simp only [pairsGo, Option.some.injEq, Prod.mk.injEq] at hp
    obtain ⟨h1, h2⟩ := hp
    subst h2
    exact ⟨cur, rfl⟩
  | cons i rest ih =>
    intro k cur st ps hp
    cases i with
    | BranchIfZero d => exact ih (k + 1) cur (k :: st) ps hp
    | BranchIfNotZero d =>
      cases st with
      | nil => simp [pairsGo] at hp
      | cons op st' =>
        simp only [pairsGo, Option.map_eq_some'] at hp
        obtain ⟨⟨ps', stF'⟩, hp', heq⟩ := hp
        rw [Prod.mk.injEq] at heq
        have h2 : stF' = [] := heq.2
        exact ih (k + 1) _ st' ps' (by rw [hp', h2])
    | IncrDp a => exact ih (k + 1) cur st ps hp
    | Incr a o => exact ih (k + 1) cur st ps hp
    | Read => exact ih (k + 1) cur st ps hp
    | Write => exact ih (k + 1) cur st ps hp
    | Set a o => exact ih (k + 1) cur st ps hp
    | Mul a o => exact ih (k + 1) cur st ps hp

/-- C3: if the bracket walk over an unlinked sequence closes every
bracket (balanced input), `link` succeeds and writes both endpoints of
every matched pair into the output: `out[i] = BranchIfZero j` and
`out[j] = BranchIfNotZero i` for every matched `(i, j)` with `i < j`. -/
theorem claim_C3 (l : List Instruction) (ps : List (Nat × Nat))
    (hbal : pairsGo 0 l [] = some (ps, [])) :
    ∃ out, link l = .ok out ∧ ∀ pr ∈ ps, pr.1 < pr.2 ∧
      out[pr.1]? = some (Instruction.BranchIfZero pr.2) ∧
      out[pr.2]? = some (Instruction.BranchIfNotZero pr.1) := by
  obtain ⟨out, hout⟩ := pairsGo_ok l 0 l [] ps hbal
  exact ⟨out, hout,
    linkGo_pairs l 0 l out [] ps [] hout hbal (by simp) (by simp) (by simp)⟩

/-- C3 witness: the linker theorem applied to `[+[-]]`-style concrete
input `[ ] ` with one pair. -/
theorem claim_C3_witness :
    pairsGo 0 [Instruction.BranchIfZero 0, Instruction.BranchIfNotZero 0] [] =
      some ([(0, 1)], []) ∧
    ∃ out, link [Instruction.BranchIfZero 0, Instruction.BranchIfNotZero 0] = .ok out ∧
      ∀ pr ∈ [((0 : Nat), (1 : Nat))], pr.1 < pr.2 ∧
        out[pr.1]? = some (Instruction.BranchIfZero pr.2) ∧
        out[pr.2]? = some (Instruction.BranchIfNotZero pr.1) :=
  ⟨by decide, claim_C3 [Instruction.BranchIfZero 0, Instruction.BranchIfNotZero 0]
    [(0, 1)] (by decide)⟩

/-- Main linker invariant: on success, every `BranchIfZero` of the output
points forward to a `BranchIfNotZero` that points back. -/
lemma linkGo_good (l : List Instruction) :
    ∀ (k : Nat) (cur out : List Instruction) (st : List Nat),
    linkGo k l cur st = .ok out →
    cur.length = k + l.length →
    (∀ m : Nat, cur[k + m]? = l[m]?) →
    (∀ p ∈ st, p < k ∧ ∃ d : Nat, cur[p]? = some (.BranchIfZero d)) →
    List.Pairwise (fun a b => b < a) st →
    (∀ (j d : Nat), cur[j]? = some (.BranchIfZero d) → j ∉ st → j < k →
      d < k ∧ j < d ∧ cur[d]? = some (.BranchIfNotZero j)) →
    ∀ (j d : Nat), out[j]? = some (.BranchIfZero d) →
      j < d ∧ out[d]? = some (.BranchIfNotZero j) := by
  induction l with
  | nil =>
    intro k cur out st h hlen hcorr hst hsort hgood j d hj
    cases st with
    | cons p r => simp [linkGo] at h
    | nil =>
      simp only [linkGo, Except.ok.injEq] at h
      subst h
      have hjlt : j < cur.length := by
        rcases List.getElem?_eq_some.mp hj with ⟨hh, _⟩
        exact hh
      have := hgood j d hj (by simp) (by simp at hlen; omega)
      exact ⟨this.2.1, this.2.2⟩
  | cons i rest ih =>
    intro k cur out st h hlen hcorr hst hsort hgood j d hj
    cases i with
    | BranchIfZero d0 =>
      refine ih (k + 1) cur out (k :: st) h ?_ ?_ ?_ ?_ ?_ j d hj
      · simp at hlen ⊢; omega
      · intro m
        have := hcorr (m + 1)
        rw [show k + 1 + m = k + (m + 1) by omega]
        simpa using this
      · intro p hp
        rcases List.mem_cons.mp hp with h1 | h2
        · subst h1
          refine ⟨by omega, d0, ?_⟩
          simpa using hcorr 0
        · obtain ⟨hplt, dp, hpc⟩ := hst p h2
          exact ⟨by omega, dp, hpc⟩
      · exact List.pairwise_cons.mpr ⟨fun b hb => (hst b hb).1, hsort⟩
      · intro j' d' hj' hnot hlt
        have hjk : j' ≠ k := fun he => hnot (he ▸ List.mem_cons_self k st)
        have hnotst : j' ∉ st := fun hm => hnot (List.mem_cons_of_mem k hm)
        have := hgood j' d' hj' hnotst (by omega)
        exact ⟨by omega, this.2.1, this.2.2⟩
    | BranchIfNotZero d0 =>
      cases st with
      | nil => simp [linkGo] at h
      | cons op st' =>
        obtain ⟨hoplt, dop, hopc⟩ := hst op (List.mem_cons_self op st')
        have hklt : k < cur.length := by simp at hlen; omega
        have hop_ne_k : op ≠ k := by omega
        have hcur'_op :
            ((cur.set k (.BranchIfNotZero op)).set op (.BranchIfZero k))[op]? =
              some (.BranchIfZero k) := by
          rw [List.getElem?_set_eq_of_lt]
          rw [List.length_set]
          omega
        have hcur'_k :
            ((cur.set k (.BranchIfNotZero op)).set op (.BranchIfZero k))[k]? =
              some (.BranchIfNotZero op) := by
          rw [List.getElem?_set_ne hop_ne_k, List.getElem?_set_eq_of_lt _ hklt]
        have hcur'_other : ∀ q : Nat, q ≠ op → q ≠ k →
            ((cur.set k (.BranchIfNotZero op)).set op (.BranchIfZero k))[q]? = cur[q]? := by
          intro q h1 h2
          rw [List.getElem?_set_ne (fun he => h1 he.symm),
            List.getElem?_set_ne (fun he => h2 he.symm)]
        have hsort' := List.pairwise_cons.mp hsort
        refine ih (k + 1) _ out st' h ?_ ?_ ?_ hsort'.2 ?_ j d hj
        · simp only [List.length_set]
          simp at hlen ⊢; omega
        · intro m
          have := hcorr (m + 1)
          rw [hcur'_other (k + 1 + m) (by omega) (by omega),
            show k + 1 + m = k + (m + 1) by omega]
          simpa using this
        · intro p hp
          obtain ⟨hplt, dp, hpc⟩ := hst p (List.mem_cons_of_mem op hp)
          have hpop : p ≠ op := by
            have := hsort'.1 p hp
            omega
          refine ⟨by omega, dp, ?_⟩
          rw [hcur'_other p hpop (by omega)]
          exact hpc
        · intro j' d' hj' hnotin hlt
          by_cases hjop : j' = op
          · subst hjop
            rw [hcur'_op] at hj'
            have hd' : d' = k := by
              injection hj' with hh
              injection hh with hh2
              omega
            subst hd'
            exact ⟨by omega, hoplt, hcur'_k⟩
          · by_cases hjk : j' = k
            · subst hjk
              rw [hcur'_k] at hj'
              simp at hj'
            · rw [hcur'_other j' hjop hjk] at hj'
              have hnotin' : j' ∉ op :: st' := by
                intro hm
                rcases List.mem_cons.mp hm with h1 | h2
                · exact hjop h1
                · exact hnotin h2
              obtain ⟨hd'k, hjd', hcd'⟩ := hgood j' d' hj' hnotin' (by omega)
              have hd'op : d' ≠ op := by
                intro he
                rw [he, hopc] at hcd'
                simp at hcd'
              refine ⟨by omega, hjd', ?_⟩
              rw [hcur'_other d' hd'op (by omega)]
              exact hcd'
    | IncrDp a =>
      refine ih (k + 1) cur out st h ?_ ?_ ?_ hsort ?_ j d hj
      · simp at hlen ⊢; omega
      · intro m
        have := hcorr (m + 1)
        rw [show k + 1 + m = k + (m + 1) by omega]
        simpa using this
      · intro p hp
        obtain ⟨hplt, dp, hpc⟩ := hst p hp
        exact ⟨by omega, dp, hpc⟩
      · intro j' d' hj' hnot hlt
        by_cases hjk : j' = k
        · rw [hjk] at hj'
          have h0 : cur[k]? = some (Instruction.IncrDp a) := by simpa using hcorr 0
          rw [h0] at hj'
          simp at hj'
        · have := hgood j' d' hj' hnot (by omega)
          exact ⟨by omega, this.2.1, this.2.2⟩
    | Incr a o =>
      refine ih (k + 1) cur out st h ?_ ?_ ?_ hsort ?_ j d hj
      · simp at hlen ⊢; omega
      · intro m
        have := hcorr (m + 1)
        rw [show k + 1 + m = k + (m + 1) by omega]
        simpa using this
      · intro p hp
        obtain ⟨hplt, dp, hpc⟩ := hst p hp
        exact ⟨by omega, dp, hpc⟩
      · intro j' d' hj' hnot hlt
        by_cases hjk : j' = k
        · rw [hjk] at hj'
          have h0 : cur[k]? = some (Instruction.Incr a o) := by simpa using hcorr 0
          rw [h0] at hj'
          simp at hj'
        · have := hgood j' d' hj' hnot (by omega)
          exact ⟨by omega, this.2.1, this.2.2⟩
    | Read =>
      refine ih (k + 1) cur out st h ?_ ?_ ?_ hsort ?_ j d hj
      · simp at hlen ⊢; omega
      · intro m
        have := hcorr (m + 1)
        rw [show k + 1 + m = k + (m + 1) by omega]
        simpa using this
      · intro p hp
        obtain ⟨hplt, dp, hpc⟩ := hst p hp
        exact ⟨by omega, dp, hpc⟩
      · intro j' d' hj' hnot hlt
        by_cases hjk : j' = k
        · rw [hjk] at hj'
          have h0 : cur[k]? = some Instruction.Read := by simpa using hcorr 0
          rw [h0] at hj'
          simp at hj'
        · have := hgood j' d' hj' hnot (by omega)
          exact ⟨by omega, this.2.1, this.2.2⟩
    | Write =>
      refine ih (k + 1) cur out st h ?_ ?_ ?_ hsort ?_ j d hj
      · simp at hlen ⊢; omega
      · intro m
        have := hcorr (m + 1)
        rw [show k + 1 + m = k + (m + 1) by omega]
        simpa using this
      · intro p hp
        obtain ⟨hplt, dp, hpc⟩ := hst p hp
        exact ⟨by omega, dp, hpc⟩
      · intro j' d' hj' hnot hlt
        by_cases hjk : j' = k
        · rw [hjk] at hj'
          have h0 : cur[k]? = some Instruction.Write := by simpa using hcorr 0
          rw [h0] at hj'
          simp at hj'
        · have := hgood j' d' hj' hnot (by omega)
          exact ⟨by omega, this.2.1, this.2.2⟩
    | Set a o =>
      refine ih (k + 1) cur out st h ?_ ?_ ?_ hsort ?_ j d hj
      · simp at hlen ⊢; omega
      · intro m
        have := hcorr (m + 1)
        rw [show k + 1 + m = k + (m + 1) by omega]
        simpa using this
      · intro p hp
        obtain ⟨hplt, dp, hpc⟩ := hst p hp
        exact ⟨by omega, dp, hpc⟩
      · intro j' d' hj' hnot hlt
        by_cases hjk : j' = k
        · rw [hjk] at hj'
          have h0 : cur[k]? = some (Instruction.Set a o) := by simpa using hcorr 0
          rw [h0] at hj'
          simp at hj'
        · have := hgood j' d' hj' hnot (by omega)
          exact ⟨by omega, this.2.1, this.2.2⟩
    | Mul a o =>
      refine ih (k + 1) cur out st h ?_ ?_ ?_ hsort ?_ j d hj
      · simp at hlen ⊢; omega
      · intro m
        have := hcorr (m + 1)
        rw [show k + 1 + m = k + (m + 1) by omega]
        simpa using this
      · intro p hp
        obtain ⟨hplt, dp, hpc⟩ := hst p hp
        exact ⟨by omega, dp, hpc⟩
      · intro j' d' hj' hnot hlt
        by_cases hjk : j' = k
        · rw [hjk] at hj'
          have h0 : cur[k]? = some (Instruction.Mul a o) := by simpa using hcorr 0
          rw [h0] at hj'
          simp at hj'
        · have := hgood j' d' hj' hnot (by omega)
          exact ⟨by omega, this.2.1, this.2.2⟩

/-- Successful linking yields output whose every `BranchIfZero` has a
matching later `BranchIfNotZero`. -/
lemma link_good (l out : List Instruction) (h : link l = .ok out) :
    ∀ (j d : Nat), out[j]? = some (.BranchIfZero d) →
      j < d ∧ out[d]? = some (.BranchIfNotZero j) :=
  linkGo_good l 0 l out [] h (by simp) (fun m => by simp) (by simp) (by simp)
    (fun j d _ _ hj => absurd hj (by omega))

lemma isSome_map {α β : Type} (f : α → β) (o : Option α) :
    (Option.map f o).isSome = o.isSome := by
  cases o <;> rfl

lemma hasLaterBNZ_of_bizB (l : List Instruction) (h : bizB l = true) : HasLaterBNZ l := by
  intro i d hi
  have hilt : i < l.length := (List.getElem?_eq_some.mp hi).1
  have hfi := List.all_eq_true.mp h i (List.mem_range.mpr hilt)
  simp only [hi] at hfi
  obtain ⟨x, hxmem, hxb⟩ := List.any_eq_true.mp hfi
  obtain ⟨m, hm⟩ := List.mem_iff_getElem?.mp hxmem
  rw [List.getElem?_drop] at hm
  cases x with
  | BranchIfNotZero r => exact ⟨i + 1 + m, r, by omega, hm⟩
  | IncrDp a => simp [isBNZb] at hxb
  | Incr a o => simp [isBNZb] at hxb
  | BranchIfZero q => simp [isBNZb] at hxb
  | Read => simp [isBNZb] at hxb
  | Write => simp [isBNZb] at hxb
  | Set a o => simp [isBNZb] at hxb
  | Mul a o => simp [isBNZb] at hxb

lemma hasLaterBNZ_of_link (l out : List Instruction) (h : link l = .ok out) :
    HasLaterBNZ out := by
  intro i d hi
  obtain ⟨hlt, hout⟩ := link_good l out h i d hi
  exact ⟨d, i, hlt, hout⟩

lemma hasLaterBNZ_tail (x : Instruction) (t : List Instruction)
    (h : HasLaterBNZ (x :: t)) : HasLaterBNZ t := by
  intro i d hi
  obtain ⟨j, r, hij, hj⟩ := h (i + 1) d (by simpa using hi)
  cases j with
  | zero => omega
  | succ j' => exact ⟨j', r, by omega, by simpa using hj⟩

/-- `combine_clears` never hits its `unwrap` panics on a sequence in
which every `BranchIfZero` has a later `BranchIfNotZero`. -/
lemma cc_isSome : ∀ (n : Nat) (l : List Instruction), l.length ≤ n → HasLaterBNZ l →
    (combine_clears l).isSome = true := by
  intro n
  induction n with
  | zero =>
    intro l hl _
    cases l with
    | nil => simp [combine_clears]
    | cons x rest => simp at hl
  | succ n ih =>
    intro l hl hb
    cases l with
    | nil => simp [combine_clears]
    | cons x rest =>
      by_cases hx : ∃ dx, x = Instruction.BranchIfZero dx
      · obtain ⟨d0, rfl⟩ := hx
        obtain ⟨j, r, hj0, hj⟩ := hb 0 d0 (by simp)
        cases rest with
        | nil =>
          rw [List.getElem?_eq_none (by simp; omega)] at hj
          cases hj
        | cons y rest2 =>
          by_cases hy : ∃ a o, y = Instruction.Incr a o
          · obtain ⟨a, o, rfl⟩ := hy
            by_cases hg : (a = 1 ∨ a = -1) ∧ o = 0
            · cases rest2 with
              | nil =>
                rcases j with _ | _ | j2
                · omega
                · simp at hj
                · rw [List.getElem?_eq_none (by simp)] at hj
                  cases hj
              | cons z rest3 =>
                by_cases hz : ∃ rz, z = Instruction.BranchIfNotZero rz
                · obtain ⟨rz, rfl⟩ := hz
                  have hcc : combine_clears (.BranchIfZero d0 :: .Incr a o ::
                      .BranchIfNotZero rz :: rest3) =
                      (combine_clears rest3).map (fun t => .Set 0 0 :: t) := by
                    rw [combine_clears.eq_def]
                    simp [hg]
                  rw [hcc, isSome_map]
                  exact ih rest3 (by simp at hl; omega)
                    (hasLaterBNZ_tail _ _ (hasLaterBNZ_tail _ _ (hasLaterBNZ_tail _ _ hb)))
                · have hcc : combine_clears (.BranchIfZero d0 :: .Incr a o :: z :: rest3) =
                      (combine_clears (z :: rest3)).map
                        (fun t => .BranchIfZero 0 :: .Incr a 0 :: t) := by
                    cases z with
                    | BranchIfNotZero rz => exact absurd ⟨rz, rfl⟩ hz
                    | IncrDp b => rw [combine_clears.eq_def]; simp [hg]
                    | Incr b p => rw [combine_clears.eq_def]; simp [hg]
                    | BranchIfZero q => rw [combine_clears.eq_def]; simp [hg]
                    | Read => rw [combine_clears.eq_def]; simp [hg]
                    | Write => rw [combine_clears.eq_def]; simp [hg]
                    | Set b p => rw [combine_clears.eq_def]; simp [hg]
                    | Mul b p => rw [combine_clears.eq_def]; simp [hg]
                  rw [hcc, isSome_map]
                  exact ih (z :: rest3) (by simp at hl ⊢; omega)
                    (hasLaterBNZ_tail _ _ (hasLaterBNZ_tail _ _ hb))
            · have hcc : combine_clears (.BranchIfZero d0 :: .Incr a o :: rest2) =
                  (combine_clears (.Incr a o :: rest2)).map
                    (fun t => .BranchIfZero 0 :: t) := by
                rw [combine_clears.eq_def]
                simp [hg]
              rw [hcc, isSome_map]
              exact ih (.Incr a o :: rest2) (by simp at hl ⊢; omega)
                (hasLaterBNZ_tail _ _ hb)
          · have hcc : combine_clears (.BranchIfZero d0 :: y :: rest2) =
                (combine_clears (y :: rest2)).map (fun t => .BranchIfZero 0 :: t) := by
              cases y with
              | Incr b p => exact absurd ⟨b, p, rfl⟩ hy
              | IncrDp b => rw [combine_clears.eq_def]
              | BranchIfZero q => rw [combine_clears.eq_def]
              | BranchIfNotZero q => rw [combine_clears.eq_def]
              | Read => rw [combine_clears.eq_def]
              | Write => rw [combine_clears.eq_def]
              | Set b p => rw [combine_clears.eq_def]
              | Mul b p => rw [combine_clears.eq_def]
            rw [hcc, isSome_map]
            exact ih (y :: rest2) (by simp at hl ⊢; omega) (hasLaterBNZ_tail _ _ hb)
      · have hcc : combine_clears (x :: rest) =
            (combine_clears rest).map (fun t => x :: t) := by
          cases x with
          | BranchIfZero q => exact absurd ⟨q, rfl⟩ hx
          | IncrDp b => rw [combine_clears.eq_def]
          | Incr b p => rw [combine_clears.eq_def]
          | BranchIfNotZero q => rw [combine_clears.eq_def]
          | Read => rw [combine_clears.eq_def]
          | Write => rw [combine_clears.eq_def]
          | Set b p => rw [combine_clears.eq_def]
          | Mul b p => rw [combine_clears.eq_def]
        rw [hcc, isSome_map]
        exact ih rest (by simp at hl; omega) (hasLaterBNZ_tail _ _ hb)

/-- C10: on a sequence in which every `BranchIfZero` is followed by a
later `BranchIfNotZero` (the shape of every linked sequence, cf.
`link_good`), `combine_clears` is total: both `peek().unwrap()` lookups
after a `BranchIfZero` find an instruction, so the pass never reads past
the end. -/
theorem claim_C10 (l : List Instruction) (h : bizB l = true) :
    (combine_clears l).isSome = true :=
  cc_isSome l.length l (le_refl _) (hasLaterBNZ_of_bizB l h)

/-- C10 witness: the totality theorem applied at a concrete linked
sequence. -/
theorem claim_C10_witness :
    bizB [Instruction.BranchIfZero 2, Instruction.Incr 1 0,
      Instruction.BranchIfNotZero 0] = true ∧
    (combine_clears [Instruction.BranchIfZero 2, Instruction.Incr 1 0,
      Instruction.BranchIfNotZero 0]).isSome = true :=
  ⟨by decide, claim_C10 _ (by decide)⟩

/-- C6 witness: the amended conjuncts applied at concrete inputs. -/
theorem claim_C6_witness :
    Instruction.IncrDp 1 ∈ group_instructions [.IncrDp 1, .Incr 1 0] ∧
    isNeutralB (Instruction.IncrDp 1) = false ∧
    Instruction.Set 5 0 ∈ coalesceInsts [.Set 5 0, .Read] ∧
    Instruction.Set 5 0 ∈ group_instructions [.Set 5 0, .Read] :=
  ⟨by decide, claim_C6.1 [.IncrDp 1, .Incr 1 0] _ (by decide), by decide,
    claim_C6.2.1 [.Set 5 0, .Read] 5 0 (by decide)⟩

lemma linkGo_err (l : List Instruction) :
    ∀ (k : Nat) (cur : List Instruction) (st : List Nat) (e : Error),
    linkGo k l cur st = .error e →
    ∃ n, e = .MissingOpeningBracket n ∨ e = .MissingClosingBracket n := by
  induction l with
  | nil =>
    intro k cur st e h
    cases st with
    | nil => simp [linkGo] at h
    | cons p r =>
      simp only [linkGo, Except.error.injEq] at h
      exact ⟨p, Or.inr h.symm⟩
  | cons i rest ih =>
    intro k cur st e h
    cases i with
    | BranchIfZero d => exact ih (k + 1) cur (k :: st) e h
    | BranchIfNotZero d =>
      cases st with
      | nil =>
        simp only [linkGo, Except.error.injEq] at h
        exact ⟨k, Or.inl h.symm⟩
      | cons op st' => exact ih (k + 1) _ st' e h
    | IncrDp a => exact ih (k + 1) cur st e h
    | Incr a o => exact ih (k + 1) cur st e h
    | Read => exact ih (k + 1) cur st e h
    | Write => exact ih (k + 1) cur st e h
    | Set a o => exact ih (k + 1) cur st e h
    | Mul a o => exact ih (k + 1) cur st e h

lemma link_err (l : List Instruction) (e : Error) (h : link l = .error e) :
    ∃ n, e = .MissingOpeningBracket n ∨ e = .MissingClosingBracket n :=
  linkGo_err l 0 l [] e h

lemma single_pass_isSome (opts : Optimisations)
    (enum : List (Int × Int) → List (Int × Int)) (l : List Instruction) :
    (optimise_single_pass opts enum l).isSome = true := by
  unfold optimise_single_pass
  cases hl : link l with
  | error e => simp
  | ok li0 =>
    dsimp only []
    have hcc : (combine_clears li0).isSome = true :=
      cc_isSome li0.length li0 (le_refl _) (hasLaterBNZ_of_link l li0 hl)
    obtain ⟨u, hu⟩ := Option.isSome_iff_exists.mp hcc
    have h1 : (if opts.combine_clears then (combine_clears li0).map link
        else some (.ok li0)).isSome = true := by
      split
      · rw [hu]; rfl
      · rfl
    obtain ⟨r1, hr1⟩ := Option.isSome_iff_exists.mp h1
    rw [hr1]
    cases r1 with
    | error e => simp
    | ok li1 =>
      dsimp only []
      cases h2 : if opts.group_instructions then link (group_instructions li1) else .ok li1 with
      | error e => simp
      | ok li2 =>
        dsimp only []
        cases h3 : if opts.reorder_instructions then link (reorder li2) else .ok li2 with
        | error e => simp
        | ok li3 =>
          dsimp only []
          cases h4 : if opts.combine_multiply_loops then
              link (combine_multiply_loops enum li3) else .ok li3 with
          | error e => simp
          | ok li4 => simp

lemma ite_link_err {c : Prop} [Decidable c] {x : List Instruction}
    {li : List Instruction} {e : Error}
    (h : (if c then link x else Except.ok li) = .error e) :
    ∃ n, e = .MissingOpeningBracket n ∨ e = .MissingClosingBracket n := by
  split at h
  · exact link_err x e h
  · cases h

lemma single_pass_err (opts : Optimisations)
    (enum : List (Int × Int) → List (Int × Int)) (l : List Instruction) (e : Error)
    (h : optimise_single_pass opts enum l = some (.error e)) :
    ∃ n, e = .MissingOpeningBracket n ∨ e = .MissingClosingBracket n := by
  unfold optimise_single_pass at h
  cases hl : link l with
  | error e' =>
    rw [hl] at h
    simp only [Option.some.injEq, Except.error.injEq] at h
    exact h ▸ link_err l e' hl
  | ok li0 =>
    rw [hl] at h
    dsimp only [] at h
    cases hs1 : (if opts.combine_clears then (combine_clears li0).map link
        else some (.ok li0)) with
    | none => rw [hs1] at h; cases h
    | some r1 =>
      rw [hs1] at h
      cases r1 with
      | error e' =>
        dsimp only [] at h
        simp only [Option.some.injEq, Except.error.injEq] at h
        subst h
        revert hs1
        split
        · intro hs1
          rcases Option.map_eq_some'.mp hs1 with ⟨u, _, hlu⟩
          exact link_err u _ hlu
        · intro hs1
          simp at hs1
      | ok li1 =>
        dsimp only [] at h
        cases h2 : (if opts.group_instructions then link (group_instructions li1)
            else Except.ok li1) with
        | error e' =>
          rw [h2] at h
          dsimp only [] at h
          simp only [Option.some.injEq, Except.error.injEq] at h
          exact h ▸ ite_link_err h2
        | ok li2 =>
          rw [h2] at h
          dsimp only [] at h
          cases h3 : (if opts.reorder_instructions then link (reorder li2)
              else Except.ok li2) with
          | error e' =>
            rw [h3] at h
            dsimp only [] at h
            simp only [Option.some.injEq, Except.error.injEq] at h
            exact h ▸ ite_link_err h3
          | ok li3 =>
            rw [h3] at h
            dsimp only [] at h
            cases h4 : (if opts.combine_multiply_loops then
                link (combine_multiply_loops enum li3) else Except.ok li3) with
            | error e' =>
              rw [h4] at h
              dsimp only [] at h
              simp only [Option.some.injEq, Except.error.injEq] at h
              exact h ▸ ite_link_err h4
            | ok li4 =>
              rw [h4] at h
              simp at h

lemma optimiseLoop_isSome (opts : Optimisations)
    (enum : List (Int × Int) → List (Int × Int)) :
    ∀ (n counter : Nat) (prev result : List Instruction),
    MAX_OPT_ITER + 1 - counter ≤ n →
    (optimiseLoop opts enum counter prev result).isSome = true := by
  intro n
  induction n with
  | zero =>
    intro counter prev result hn
    rw [optimiseLoop]
    cases link prev with
    | error e => simp
    | ok pl =>
      dsimp only []
      rw [if_neg (fun hand => absurd hand.2 (by simp only [MAX_OPT_ITER] at hn ⊢; omega))]
      simp
  | succ n ih =>
    intro counter prev result hn
    rw [optimiseLoop]
    cases link prev with
    | error e => simp
    | ok pl =>
      dsimp only []
      by_cases hcond : pl ≠ result ∧ counter ≤ MAX_OPT_ITER
      · rw [if_pos hcond]
        obtain ⟨r, hr⟩ := Option.isSome_iff_exists.mp (single_pass_isSome opts enum result)
        rw [hr]
        cases r with
        | error e => simp
        | ok r2 =>
          exact ih (counter + 1) result r2
            (by simp only [MAX_OPT_ITER] at hn hcond ⊢; omega)
      · rw [if_neg hcond]
        simp

lemma optimiseLoop_err (opts : Optimisations)
    (enum : List (Int × Int) → List (Int × Int)) :
    ∀ (n counter : Nat) (prev result : List Instruction) (e : Error),
    MAX_OPT_ITER + 1 - counter ≤ n →
    optimiseLoop opts enum counter prev result = some (.error e) →
    ∃ m, e = .MissingOpeningBracket m ∨ e = .MissingClosingBracket m := by
  intro n
  induction n with
  | zero =>
    intro counter prev result e hn h
    rw [optimiseLoop] at h
    cases hl : link prev with
    | error e' =>
      rw [hl] at h
      simp only [Option.some.injEq, Except.error.injEq] at h
      exact h ▸ link_err prev e' hl
    | ok pl =>
      rw [hl] at h
      dsimp only [] at h
      rw [if_neg (fun hand => absurd hand.2
        (by simp only [MAX_OPT_ITER] at hn ⊢; omega))] at h
      simp at h
  | succ n ih =>
    intro counter prev result e hn h
    rw [optimiseLoop] at h
    cases hl : link prev with
    | error e' =>
      rw [hl] at h
      simp only [Option.some.injEq, Except.error.injEq] at h
      exact h ▸ link_err prev e' hl
    | ok pl =>
      rw [hl] at h
      dsimp only [] at h
      by_cases hcond : pl ≠ result ∧ counter ≤ MAX_OPT_ITER
      · rw [if_pos hcond] at h
        cases hsp : optimise_single_pass opts enum result with
        | none => rw [hsp] at h; cases h
        | some r =>
          rw [hsp] at h
          cases r with
          | error e' =>
            dsimp only [] at h
            simp only [Option.some.injEq, Except.error.injEq] at h
            exact h ▸ single_pass_err opts enum result e' hsp
          | ok r2 =>
            exact ih (counter + 1) result r2 e
              (by simp only [MAX_OPT_ITER] at hn hcond ⊢; omega) h
      · rw [if_neg hcond] at h
        simp at h

/-- C9: the optimisation driver always halts (its convergence loop is
counter-bounded and total for every input, enabled-pass set and hash-map
iteration order); it stops as soon as the relinked previous IR equals the
current result, or as soon as the counter has passed `MAX_OPT_ITER = 20`;
and every failure it can surface is a linking error
(`MissingOpeningBracket`/`MissingClosingBracket`), never any other
`Error` variant or a panic. -/
theorem claim_C9 :
    (∀ (opts : Optimisations) (enum : List (Int × Int) → List (Int × Int))
      (l : List Instruction), (optimise opts enum l).isSome = true) ∧
    (∀ (opts : Optimisations) (enum : List (Int × Int) → List (Int × Int))
      (l : List Instruction) (e : Error), optimise opts enum l = some (.error e) →
      ∃ n, e = Error.MissingOpeningBracket n ∨ e = Error.MissingClosingBracket n) ∧
    (∀ (opts : Optimisations) (enum : List (Int × Int) → List (Int × Int))
      (counter : Nat) (prev result : List Instruction), link prev = .ok result →
      optimiseLoop opts enum counter prev result = some (.ok result)) ∧
    (∀ (opts : Optimisations) (enum : List (Int × Int) → List (Int × Int))
      (counter : Nat) (prev result pl : List Instruction), link prev = .ok pl →
      MAX_OPT_ITER < counter →
      optimiseLoop opts enum counter prev result = some (.ok result)) ∧
    MAX_OPT_ITER = 20 := by
  refine ⟨?_, ?_, ?_, ?_, rfl⟩
  · intro opts enum l
    unfold optimise
    cases hsp : optimise_single_pass opts enum l with
    | none =>
      have := single_pass_isSome opts enum l
      rw [hsp] at this
      cases this
    | some r =>
      cases r with
      | error e => simp
      | ok r1 => exact optimiseLoop_isSome opts enum (MAX_OPT_ITER + 1) 0 l r1 (by omega)
  · intro opts enum l e h
    unfold optimise at h
    cases hsp : optimise_single_pass opts enum l with
    | none => rw [hsp] at h; cases h
    | some r =>
      rw [hsp] at h
      cases r with
      | error e' =>
        simp only [Option.some.injEq, Except.error.injEq] at h
        exact h ▸ single_pass_err opts enum l e' hsp
      | ok r1 => exact optimiseLoop_err opts enum (MAX_OPT_ITER + 1) 0 l r1 e (by omega) h
  · intro opts enum counter prev result h
    rw [optimiseLoop, h]
    dsimp only []
    rw [if_neg (by simp)]
  · intro opts enum counter prev result pl h hc
    rw [optimiseLoop, h]
    dsimp only []
    rw [if_neg (fun hand => absurd hand.2 (by simp only [MAX_OPT_ITER] at hc ⊢; omega))]

/-- C9 witness: the stopping and totality conjuncts applied at concrete
inputs. -/
theorem claim_C9_witness :
    link [Instruction.Write] = .ok [Instruction.Write] ∧
    optimiseLoop ⟨true, true, true, true⟩ id 0 [Instruction.Write] [Instruction.Write] =
      some (.ok [Instruction.Write]) ∧
    (optimise ⟨true, true, true, true⟩ id [Instruction.Write]).isSome = true :=
  ⟨by decide, claim_C9.2.2.1 ⟨true, true, true, true⟩ id 0 [Instruction.Write]
    [Instruction.Write] (by decide),
    claim_C9.1 ⟨true, true, true, true⟩ id [Instruction.Write]⟩

lemma netMoveGo_shape : ∀ (insts : List Instruction) (acc r : Int),
    netMoveGo acc insts = some r → ∀ c ∈ insts,
    (∃ a o, c = Instruction.Incr a o) ∨ (∃ a, c = Instruction.IncrDp a) := by
  intro insts
  induction insts with
  | nil => intro acc r _ c hc; cases hc
  | cons x rest ih =>
    intro acc r h c hc
    rcases List.mem_cons.mp hc with h1 | h2
    · subst h1
      cases c with
      | Incr a o => exact Or.inl ⟨a, o, rfl⟩
      | IncrDp a => exact Or.inr ⟨a, rfl⟩
      | BranchIfZero q => simp [netMoveGo] at h
      | BranchIfNotZero q => simp [netMoveGo] at h
      | Read => simp [netMoveGo] at h
      | Write => simp [netMoveGo] at h
      | Set a o => simp [netMoveGo] at h
      | Mul a o => simp [netMoveGo] at h
    · cases x with
      | Incr a o => exact ih acc r h c h2
      | IncrDp a => exact ih (acc + a) r h c h2
      | BranchIfZero q => simp [netMoveGo] at h
      | BranchIfNotZero q => simp [netMoveGo] at h
      | Read => simp [netMoveGo] at h
      | Write => simp [netMoveGo] at h
      | Set a o => simp [netMoveGo] at h
      | Mul a o => simp [netMoveGo] at h

lemma is_multiply_loop_shape (insts : List Instruction) (ch : List (Int × Int))
    (h : is_multiply_loop insts = some ch) :
    ∀ c ∈ insts, (∃ a o, c = Instruction.Incr a o) ∨ (∃ a, c = Instruction.IncrDp a) := by
  unfold is_multiply_loop at h
  cases hn : netMoveGo 0 insts with
  | none => rw [hn] at h; cases h
  | some net => exact netMoveGo_shape insts 0 net hn

lemma cmlGo_reaches (enum : List (Int × Int) → List (Int × Int)) (orig : List Instruction)
    (hlink : ∀ (p q : Nat), orig[p]? = some (.BranchIfZero q) →
      ∃ r, orig[q]? = some (.BranchIfNotZero r))
    (i j : Nat) (ch : List (Int × Int))
    (hbiz : orig[i]? = some (.BranchIfZero j))
    (hml : is_multiply_loop ((orig.drop (i + 1)).take (j - (i + 1))) = some ch)
    (hij : i + 1 < j) :
    ∀ (n p : Nat), orig.length - p ≤ n → p ≤ i →
    ∃ pre, cmlGo orig enum p (orig.drop p) =
      pre ++ ((enum (eraseKey 0 ch)).map (fun e => Instruction.Mul e.2 e.1)) ++
        (Instruction.Set 0 0 :: cmlGo orig enum (j + 1) (orig.drop (j + 1))) := by
  have hilen : i < orig.length := (List.getElem?_eq_some.mp hbiz).1
  intro n
  induction n with
  | zero =>
    intro p hn hpi
    omega
  | succ n ih =>
    intro p hn hpi
    by_cases hpieq : p = i
    · subst hpieq
      have hdrop : orig.drop p = Instruction.BranchIfZero j :: orig.drop (p + 1) := by
        rw [List.drop_eq_getElem_cons hilen]
        congr 1
        have := List.getElem?_eq_some.mp hbiz
        rw [this.2]
      rw [hdrop, cmlGo.eq_def]
      dsimp only []
      rw [hml]
      refine ⟨[], ?_⟩
      rw [List.drop_drop, show p + 1 + (j - p) = j + 1 by omega]
      dsimp only []
      simp
    · have hpi' : p < i := by omega
      have hplen : p < orig.length := by omega
      have hdrop : orig.drop p = orig[p] :: orig.drop (p + 1) :=
        List.drop_eq_getElem_cons hplen
      have hstep : ∀ (c : Instruction), orig[p] = c →
          (∀ d : Nat, c ≠ .BranchIfZero d) →
          cmlGo orig enum p (orig.drop p) = c :: cmlGo orig enum (p + 1) (orig.drop (p + 1)) := by
        intro c hc hnb
        rw [hdrop, hc, cmlGo.eq_def]
        cases c with
        | BranchIfZero d => exact absurd rfl (hnb d)
        | IncrDp a => rfl
        | Incr a o => rfl
        | BranchIfNotZero d => rfl
        | Read => rfl
        | Write => rfl
        | Set a o => rfl
        | Mul a o => rfl
      cases hc : orig[p] with
      | BranchIfZero d =>
        have hbp : orig[p]? = some (.BranchIfZero d) := by
          rw [List.getElem?_eq_some]
          exact ⟨hplen, hc⟩
        cases hml2 : is_multiply_loop ((orig.drop (p + 1)).take (d - (p + 1))) with
        | none =>
          obtain ⟨pre, heq⟩ := ih (p + 1) (by omega) (by omega)
          refine ⟨.BranchIfZero d :: pre, ?_⟩
          rw [hdrop, hc, cmlGo.eq_def]
          dsimp only []
          rw [hml2, heq]
          simp
        | some ch2 =>
          -- the skipped segment cannot contain position i
          have hdge : p + 1 ≤ d := by
            by_contra hlt
            have : d - (p + 1) = 0 := by omega
            rw [this] at hml2
            simp at hml2
            cases hml2
          have hinotbody : ¬(p + 1 ≤ i ∧ i < d) := by
            rintro ⟨h1, h2⟩
            have hb : ((orig.drop (p + 1)).take (d - (p + 1)))[i - (p + 1)]? =
                some (.BranchIfZero j) := by
              rw [List.getElem?_take, if_pos (by omega), List.getElem?_drop,
                show p + 1 + (i - (p + 1)) = i by omega]
              exact hbiz
            have hmem := List.getElem?_mem hb
            rcases is_multiply_loop_shape _ _ hml2 _ hmem with ⟨a, o, hco⟩ | ⟨a, hco⟩ <;>
              cases hco
          have hine : i ≠ d := by
            intro he
            obtain ⟨r, hr⟩ := hlink p d hbp
            rw [← he, hbiz] at hr
            cases hr
          have hpd : d + 1 ≤ i := by omega
          obtain ⟨pre, heq⟩ := ih (p + 1 + (d - p)) (by omega) (by omega)
          refine ⟨((enum (eraseKey 0 ch2)).map (fun e => Instruction.Mul e.2 e.1)) ++
            (Instruction.Set 0 0 :: pre), ?_⟩
          rw [hdrop, hc, cmlGo.eq_def]
          dsimp only []
          rw [hml2]
          dsimp only []
          rw [List.drop_drop]
          rw [show p + 1 + (d - p) = d + 1 by omega] at heq ⊢
          rw [heq]
          simp
      | IncrDp a =>
        obtain ⟨pre, heq⟩ := ih (p + 1) (by omega) (by omega)
        exact ⟨.IncrDp a :: pre, by
          rw [hstep _ hc (by intro d hd; cases hd), heq]; simp⟩
      | Incr a o =>
        obtain ⟨pre, heq⟩ := ih (p + 1) (by omega) (by omega)
        exact ⟨.Incr a o :: pre, by
          rw [hstep _ hc (by intro d hd; cases hd), heq]; simp⟩
      | BranchIfNotZero d =>
        obtain ⟨pre, heq⟩ := ih (p + 1) (by omega) (by omega)
        exact ⟨.BranchIfNotZero d :: pre, by
          rw [hstep _ hc (by intro d' hd; cases hd), heq]; simp⟩
      | Read =>
        obtain ⟨pre, heq⟩ := ih (p + 1) (by omega) (by omega)
        exact ⟨.Read :: pre, by
          rw [hstep _ hc (by intro d hd; cases hd), heq]; simp⟩
      | Write =>
        obtain ⟨pre, heq⟩ := ih (p + 1) (by omega) (by omega)
        exact ⟨.Write :: pre, by
          rw [hstep _ hc (by intro d hd; cases hd), heq]; simp⟩
      | Set a o =>
        obtain ⟨pre, heq⟩ := ih (p + 1) (by omega) (by omega)
        exact ⟨.Set a o :: pre, by
          rw [hstep _ hc (by intro d hd; cases hd), heq]; simp⟩
      | Mul a o =>
        obtain ⟨pre, heq⟩ := ih (p + 1) (by omega) (by omega)
        exact ⟨.Mul a o :: pre, by
          rw [hstep _ hc (by intro d hd; cases hd), heq]; simp⟩


lemma linked_of_linkedBIZb (l : List Instruction) (h : linkedBIZb l = true) :
    ∀ (p q : Nat), l[p]? = some (.BranchIfZero q) →
      ∃ r, l[q]? = some (.BranchIfNotZero r) := by
  intro p q hp
  have hplen : p < l.length := (List.getElem?_eq_some.mp hp).1
  have hf := List.all_eq_true.mp h p (List.mem_range.mpr hplen)
  rw [hp] at hf
  dsimp only [] at hf
  cases hq : l[q]? with
  | none => rw [hq] at hf; exact absurd hf (by simp)
  | some c =>
    rw [hq] at hf
    cases c with
    | BranchIfNotZero r => exact ⟨r, rfl⟩
    | IncrDp a => exact absurd hf (by simp)
    | Incr a o => exact absurd hf (by simp)
    | BranchIfZero d => exact absurd hf (by simp)
    | Read => exact absurd hf (by simp)
    | Write => exact absurd hf (by simp)
    | Set a o => exact absurd hf (by simp)
    | Mul a o => exact absurd hf (by simp)

/-- C8. Amended form of the multiply-loop claim: for a linked sequence
`l` in which position `i` holds `BranchIfZero j` whose body qualifies as
a multiply loop with cell changes `ch`, the pass replaces the entire
loop — brackets included — by one `Mul{amount, offset}` per entry of
the change map with key 0 removed, emitted in the hash map's iteration
order `enum` (an arbitrary, unspecified order — NOT ascending offset
order as the spec states), followed by `Set 0 0`, and resumes right
after the closing bracket. -/
theorem claim_C8 (enum : List (Int × Int) → List (Int × Int))
    (l : List Instruction) (i j : Nat) (ch : List (Int × Int))
    (hlink : linkedBIZb l = true)
    (hbiz : l[i]? = some (Instruction.BranchIfZero j))
    (hml : is_multiply_loop ((l.drop (i + 1)).take (j - (i + 1))) = some ch) :
    ∃ pre, combine_multiply_loops enum l =
      pre ++ ((enum (eraseKey 0 ch)).map (fun e => Instruction.Mul e.2 e.1)) ++
        (Instruction.Set 0 0 :: cmlGo l enum (j + 1) (l.drop (j + 1))) := by
  have hij : i + 1 < j := by
    by_contra hle
    have h0 : j - (i + 1) = 0 := by omega
    rw [h0, List.take_zero,
      show is_multiply_loop ([] : List Instruction) = none from rfl] at hml
    cases hml
  have := cmlGo_reaches enum l (linked_of_linkedBIZb l hlink) i j ch hbiz hml hij
    l.length 0 (by omega) (by omega)
  simpa using this

/-- C8 counterexample: the qualifying loop `[-`>`+`>`+`<`<`]` has cell
changes `{0 ↦ -1, 1 ↦ 1, 2 ↦ 1}`; with the iteration order that lists
the map's entries in reverse, the pass emits `Mul 1 2` before `Mul 1 1`
— a legal hash-map order, but not the ascending-offset order the spec
promises. -/
theorem claim_C8_counterexample :
    IterOrd List.reverse ∧
    combine_multiply_loops List.reverse
      [Instruction.BranchIfZero 8, Instruction.Incr (-1) 0, Instruction.IncrDp 1,
       Instruction.Incr 1 0, Instruction.IncrDp 1, Instruction.Incr 1 0,
       Instruction.IncrDp (-1), Instruction.IncrDp (-1),
       Instruction.BranchIfNotZero 0] =
      [Instruction.Mul 1 2, Instruction.Mul 1 1, Instruction.Set 0 0] ∧
    [Instruction.Mul 1 2, Instruction.Mul 1 1, Instruction.Set 0 0] ≠
      [Instruction.Mul 1 1, Instruction.Mul 1 2, Instruction.Set 0 0] := by
  refine ⟨fun m => List.reverse_perm m, ?_, by decide⟩
  rw [combine_multiply_loops, cmlGo.eq_def]
  dsimp only []
  rw [show is_multiply_loop (List.take (8 - (0 + 1))
    (List.drop (0 + 1)
      [Instruction.BranchIfZero 8, Instruction.Incr (-1) 0, Instruction.IncrDp 1,
       Instruction.Incr 1 0, Instruction.IncrDp 1, Instruction.Incr 1 0,
       Instruction.IncrDp (-1), Instruction.IncrDp (-1),
       Instruction.BranchIfNotZero 0])) =
    some [(0, -1), (1, 1), (2, 1)] from rfl]
  rw [cmlGo.eq_def]
  dsimp only []
  rfl

theorem claim_C8_witness :
    ∃ pre, combine_multiply_loops id
      [Instruction.BranchIfZero 8, Instruction.Incr (-1) 0, Instruction.IncrDp 1,
       Instruction.Incr 1 0, Instruction.IncrDp 1, Instruction.Incr 1 0,
       Instruction.IncrDp (-1), Instruction.IncrDp (-1),
       Instruction.BranchIfNotZero 0] =
      pre ++ ((id (eraseKey 0 [((0 : Int), (-1 : Int)), (1, 1), (2, 1)])).map
        (fun e => Instruction.Mul e.2 e.1)) ++
        (Instruction.Set 0 0 :: cmlGo
          [Instruction.BranchIfZero 8, Instruction.Incr (-1) 0, Instruction.IncrDp 1,
           Instruction.Incr 1 0, Instruction.IncrDp 1, Instruction.Incr 1 0,
           Instruction.IncrDp (-1), Instruction.IncrDp (-1),
           Instruction.BranchIfNotZero 0] id 9
          (List.drop 9
            [Instruction.BranchIfZero 8, Instruction.Incr (-1) 0, Instruction.IncrDp 1,
             Instruction.Incr 1 0, Instruction.IncrDp 1, Instruction.Incr 1 0,
             Instruction.IncrDp (-1), Instruction.IncrDp (-1),
             Instruction.BranchIfNotZero 0])) :=
  claim_C8 id _ 0 8 [(0, -1), (1, 1), (2, 1)] (by decide) (by decide) (by decide)

end BfRust
